import Mathlib

/-!
Verification of the batched table-state/URL synchronization core of
`tanstack-table-search-params`.

The batched state updater (`useBatchedStateUpdate.ts`) is embedded directly
from the source.  The per-slice encoder/decoder functions, the query
serializer and the debounce layer are imported by that file but their
sources are not part of the repository snapshot; they are modelled from the
specification (each such definition carries a doc comment starting with
`Modelled from the spec:`).
-/

namespace TTSP


/-! ### Generic list/string utilities used by the codec models -/

/-- Concatenation of the images of a list under a list-valued function. -/
def concatMap (f : α → List β) : List α → List β
  | [] => []
  | a :: as => f a ++ concatMap f as

/-- Split a character list at separator occurrences (auxiliary, with an
accumulator holding the current token reversed). -/
def splitAux (sep : Char) : List Char → List Char → List String
  | [], acc => [String.mk acc.reverse]
  | c :: cs, acc =>
    if c = sep then String.mk acc.reverse :: splitAux sep cs []
    else splitAux sep cs (c :: acc)

/-- Split a string into the tokens between occurrences of `sep`
(JavaScript `String.prototype.split` on a single-character separator). -/
def splitStr (sep : Char) (s : String) : List String :=
  splitAux sep s.data []

/-- Join a list of strings with a single-character separator
(JavaScript `Array.prototype.join`). -/
def joinStr (sep : Char) : List String → String
  | [] => ""
  | [x] => x
  | x :: y :: ys => x ++ String.singleton sep ++ joinStr sep (y :: ys)

/-- Break a character list at the first occurrence of `sep`, returning the
part before and the part after it (`none` when `sep` does not occur). -/
def breakAtChar (sep : Char) : List Char → Option (List Char × List Char)
  | [] => none
  | c :: cs =>
    if c = sep then some ([], cs)
    else (breakAtChar sep cs).map (fun p => (c :: p.1, p.2))

/-! ### Decimal printing and parsing (JavaScript `String(number)` model) -/

/-- Character for a single decimal digit. -/
def digitChar (n : Nat) : Char := Char.ofNat (48 + n)

/-- Decimal digit value of a character, `none` for non-digits. -/
def digitVal (c : Char) : Option Nat :=
  if 48 ≤ c.toNat ∧ c.toNat ≤ 57 then some (c.toNat - 48) else none

/-- Decimal printing with a structural fuel bound (any fuel above the
value itself is enough). -/
def natToCharsAux : Nat → Nat → List Char
  | 0, _ => []
  | fuel + 1, n =>
    if n < 10 then [digitChar n]
    else natToCharsAux fuel (n / 10) ++ [digitChar (n % 10)]

/-- Decimal representation of a natural number, most significant digit
first. -/
def natToChars (n : Nat) : List Char := natToCharsAux (n + 1) n

/-- Accumulating decimal parser over a character list; fails on any
non-digit character. -/
def parseNatAux : List Char → Nat → Option Nat
  | [], acc => some acc
  | c :: cs, acc =>
    match digitVal c with
    | some d => parseNatAux cs (10 * acc + d)
    | none => none

/-- Parse a nonempty all-digit character list as a natural number. -/
def parseNatChars (cs : List Char) : Option Nat :=
  if cs.isEmpty then none else parseNatAux cs 0

/-- Decimal representation of an integer (JavaScript number-to-string for
integral values). -/
def intToChars (n : Int) : List Char :=
  if n < 0 then Char.ofNat 45 :: natToChars n.natAbs else natToChars n.toNat

/-- Parse an optionally `-`-signed decimal character list as an integer. -/
def parseIntChars (cs : List Char) : Option Int :=
  match cs with
  | [] => none
  | c :: rest =>
    if c = Char.ofNat 45 then
      match parseNatChars rest with
      | some m => some (-(m : Int))
      | none => none
    else
      match parseNatChars cs with
      | some m => some ((m : Int))
      | none => none

/-! ### Percent-encoding (model of `encodeURIComponent` on code points) -/

/-- Characters that `encodeURIComponent` leaves unescaped. -/
def isUnreserved (c : Char) : Bool :=
  c.isAlphanum || c = Char.ofNat 45 || c = Char.ofNat 95 || c = Char.ofNat 46 ||
    c = Char.ofNat 33 || c = Char.ofNat 126 || c = Char.ofNat 42 ||
    c = Char.ofNat 39 || c = Char.ofNat 40 || c = Char.ofNat 41

/-- Uppercase hexadecimal digit character. -/
def hexDigitChar (n : Nat) : Char :=
  if n < 10 then Char.ofNat (48 + n) else Char.ofNat (55 + n)

/-- Two-digit uppercase hexadecimal representation of a byte. -/
def hexPair (n : Nat) : List Char := [hexDigitChar (n / 16), hexDigitChar (n % 16)]

/-- Hexadecimal digit value of a character, `none` for non-hex-digits. -/
def hexVal (c : Char) : Option Nat :=
  if 48 ≤ c.toNat ∧ c.toNat ≤ 57 then some (c.toNat - 48)
  else if 65 ≤ c.toNat ∧ c.toNat ≤ 70 then some (c.toNat - 55)
  else if 97 ≤ c.toNat ∧ c.toNat ≤ 102 then some (c.toNat - 87)
  else none

/-- Percent-encoding of a single character: unreserved characters pass
through; other characters with code below 256 become `%HH`; characters at
or above code 256 are kept as-is (the model works on code points, not
UTF-8 bytes). -/
def urlEncodeChar (c : Char) : List Char :=
  if isUnreserved c then [c]
  else if c.toNat < 256 then Char.ofNat 37 :: hexPair c.toNat
  else [c]

/-- Percent-decoding of a character list: `%` followed by two hex digits
becomes the corresponding character; everything else passes through. -/
def urlDecodeChars : List Char → List Char
  | [] => []
  | c :: c1 :: c2 :: rest2 =>
    if c = Char.ofNat 37 then
      match hexVal c1, hexVal c2 with
      | some h1, some h2 => Char.ofNat (16 * h1 + h2) :: urlDecodeChars rest2
      | _, _ => c :: urlDecodeChars (c1 :: c2 :: rest2)
    else c :: urlDecodeChars (c1 :: c2 :: rest2)
  | c :: rest => c :: urlDecodeChars rest

/-! ### JSON scalar model for column filter values -/

/-- Column filter values: the JSON-representable scalars handled by the
column filter codec (strings and integral numbers). -/
inductive FilterValue where
  | str (s : String)
  | num (n : Int)
deriving DecidableEq, Repr

/-- JSON string-body escaping: backslash-escape quotes and backslashes. -/
def escapeJson : List Char → List Char
  | [] => []
  | c :: cs =>
    if c = Char.ofNat 34 ∨ c = Char.ofNat 92 then
      Char.ofNat 92 :: c :: escapeJson cs
    else c :: escapeJson cs

/-- JSON serialization of a filter value (model of `JSON.stringify` on the
scalar values above). -/
def jsonEncodeFV : FilterValue → List Char
  | .str s => Char.ofNat 34 :: (escapeJson s.data ++ [Char.ofNat 34])
  | .num n => intToChars n

/-- Parse the body of a JSON string literal (after the opening quote),
requiring the closing quote to end the input. -/
def parseJsonStr : List Char → List Char → Option String
  | [], _ => none
  | c :: rest, acc =>
    if c = Char.ofNat 92 then
      match rest with
      | c2 :: rest2 =>
        if c2 = Char.ofNat 34 ∨ c2 = Char.ofNat 92 then
          parseJsonStr rest2 (c2 :: acc)
        else none
      | [] => none
    else if c = Char.ofNat 34 then
      if rest.isEmpty then some (String.mk acc.reverse) else none
    else parseJsonStr rest (c :: acc)

/-- Parse a JSON scalar (model of `JSON.parse` restricted to the scalar
values above); `none` on malformed input. -/
def jsonParseFV (cs : List Char) : Option FilterValue :=
  match cs with
  | [] => none
  | c :: rest =>
    if c = Char.ofNat 34 then (parseJsonStr rest []).map FilterValue.str
    else (parseIntChars cs).map FilterValue.num

/-! ### Data model: query objects, table state, configuration -/

/-- A query parameter value: a plain string or an ordered sequence of
strings (`string | string[]` in the source's `Query` type). -/
inductive QVal where
  | s (v : String)
  | l (vs : List String)
deriving DecidableEq, Repr

/-- A parsed query object: an insertion-ordered mapping from keys to
values, where a `none` value models a JavaScript `undefined` entry. -/
abbrev Query := List (String × Option QVal)

/-- Key membership test on a query object. -/
def qhas : Query → String → Bool
  | [], _ => false
  | p :: ps, k => p.1 == k || qhas ps k

/-- Replace the value of every entry whose key is `k` (JavaScript objects
hold each key once, so this is the in-place update of that key). -/
def qreplace : Query → String → Option QVal → Query
  | [], _, _ => []
  | p :: ps, k, v => if p.1 = k then (k, v) :: qreplace ps k v else p :: qreplace ps k v

/-- JavaScript object property write `obj[k] = v`: updates the value in
place when the key exists, appends otherwise. -/
def qset (q : Query) (k : String) (v : Option QVal) : Query :=
  if qhas q k then qreplace q k v else q ++ [(k, v)]

/-- JavaScript `delete obj[k]`. -/
def qdel : Query → String → Query
  | [], _ => []
  | p :: ps, k => if p.1 = k then qdel ps k else p :: qdel ps k

/-- JavaScript property read `obj[k]`: `none` when the key is absent. -/
def qget : Query → String → Option (Option QVal)
  | [], _ => none
  | p :: ps, k => if p.1 = k then some p.2 else qget ps k

/-- JavaScript object spread / `Object.assign`: assign every entry of `u`
over `q` in order. -/
def qassign (q : Query) (u : Query) : Query :=
  u.foldl (fun acc p => qset acc p.1 p.2) q

/-- The `Object.entries(...).filter(([, value]) => value !== undefined)`
step of the source: strip entries whose value is `undefined`. -/
def qclean : Query → Query
  | [] => []
  | p :: ps => if p.2 = none then qclean ps else p :: qclean ps

/-- One sorting entry (`{id, desc}`). -/
structure ColumnSort where
  id : String
  desc : Bool
deriving DecidableEq, Repr

/-- One column filter entry (`{id, value}`). -/
structure ColumnFilter where
  id : String
  value : FilterValue
deriving DecidableEq, Repr

/-- Pagination state (`{pageIndex, pageSize}`). -/
structure Pagination where
  pageIndex : Nat
  pageSize : Nat
deriving DecidableEq, Repr

/-- The full table state (`State` in the source). -/
structure State where
  globalFilter : Option String
  sorting : List ColumnSort
  pagination : Pagination
  columnFilters : List ColumnFilter
  columnOrder : List String
  rowSelection : List (String × Bool)
deriving DecidableEq, Repr

/-- Custom parameter names for the two pagination parameters. -/
structure PaginationParamNames where
  pageIndex : String
  pageSize : String
deriving DecidableEq, Repr

/-- The `paramNames` configuration: per-slice query parameter name
overrides. -/
structure ParamNames where
  globalFilter : Option String := none
  sorting : Option String := none
  columnFilters : Option String := none
  columnOrder : Option String := none
  rowSelection : Option String := none
  pagination : Option PaginationParamNames := none

/-- The `defaultValues` configuration: per-slice configured defaults. -/
structure DefaultValues where
  globalFilter : Option String := none
  sorting : Option (List ColumnSort) := none
  pagination : Option Pagination := none
  columnFilters : Option (List ColumnFilter) := none
  columnOrder : Option (List String) := none
  rowSelection : Option (List (String × Bool)) := none

/-- The `encoders` configuration: caller-supplied per-slice override
encoders.  Each override returns the key-value record that the source
merges into `updates` via `Object.assign`; a thrown exception is modelled
by the `Except` error case. -/
structure Encoders where
  globalFilter : Option (Option String → Except String Query) := none
  sorting : Option (List ColumnSort → Except String Query) := none
  pagination : Option (Pagination → Except String Query) := none
  columnFilters : Option (List ColumnFilter → Except String Query) := none
  columnOrder : Option (List String → Except String Query) := none
  rowSelection : Option (List (String × Bool) → Except String Query) := none

/-- The `Options` configuration object. -/
structure Options where
  paramNames : Option ParamNames := none
  defaultValues : Option DefaultValues := none
  encoders : Option Encoders := none

/-- The injected router snapshot: current query and pathname. -/
structure Router where
  query : Query
  pathname : String

/-- JavaScript `x || dflt` on an optional string (empty strings are
falsy). -/
def orDefaultName (v : Option String) (dflt : String) : String :=
  match v with
  | some s => if s = "" then dflt else s
  | none => dflt

def globalFilterParam (o : Option Options) : String :=
  orDefaultName ((o.bind (fun t => t.paramNames)).bind (fun t => t.globalFilter))
    "globalFilter"

def sortingParam (o : Option Options) : String :=
  orDefaultName ((o.bind (fun t => t.paramNames)).bind (fun t => t.sorting))
    "sorting"

def columnFiltersParam (o : Option Options) : String :=
  orDefaultName ((o.bind (fun t => t.paramNames)).bind (fun t => t.columnFilters))
    "columnFilters"

def columnOrderParam (o : Option Options) : String :=
  orDefaultName ((o.bind (fun t => t.paramNames)).bind (fun t => t.columnOrder))
    "columnOrder"

def rowSelectionParam (o : Option Options) : String :=
  orDefaultName ((o.bind (fun t => t.paramNames)).bind (fun t => t.rowSelection))
    "rowSelection"

/-- The `paginationParams` object of the source (`||` on an object value;
objects are always truthy, so a configured object is used as-is). -/
def paginationParamNames (o : Option Options) : PaginationParamNames :=
  match (o.bind (fun t => t.paramNames)).bind (fun t => t.pagination) with
  | some p => p
  | none => ⟨"pageIndex", "pageSize"⟩

def pageIndexParam (o : Option Options) : String := (paginationParamNames o).pageIndex

def pageSizeParam (o : Option Options) : String := (paginationParamNames o).pageSize

/-! ### Default per-slice codecs

The `encoder-decoder` module is imported by `useBatchedStateUpdate.ts` but
its source is not part of the repository snapshot, so the default codecs
below are modelled from the specification (section 4.1). -/

/-- The comma delimiter used by the delimited multi-value encodings. -/
def commaChar : Char := Char.ofNat 44

/-- The dot separating a column id from its payload in dot-notation. -/
def dotChar : Char := Char.ofNat 46

/-- Modelled from the spec: default global filter encoder (missing
`encodeGlobalFilter` of `encoder-decoder`).  A string encodes to itself;
`undefined` or a value equal to the configured default encodes to
`undefined` (parameter omitted). -/
def encodeGlobalFilter (v : Option String) (defaultValue : Option String) :
    Option String :=
  if v = none ∨ v = defaultValue then none else v

/-- Modelled from the spec: default global filter decoder (missing
`decodeGlobalFilter` of `encoder-decoder`).  A present string decodes to
itself; a missing or non-string parameter yields the configured default. -/
def decodeGlobalFilter (qv : Option QVal) (defaultValue : Option String) :
    Option String :=
  match qv with
  | some (.s v) => some v
  | _ => defaultValue

/-- One sorting entry in its `id.desc` / `id.asc` textual form. -/
def sortItemToChars (cs : ColumnSort) : String :=
  cs.id ++ (if cs.desc then ".desc" else ".asc")

/-- Modelled from the spec: default sorting encoder (missing
`encodeSorting` of `encoder-decoder`).  An order-preserving
delimiter-joined `id.direction` entry list; the empty sequence or a value
equal to the configured default encodes to `undefined`. -/
def encodeSorting (v : List ColumnSort) (defaultValue : Option (List ColumnSort)) :
    Option String :=
  if v = defaultValue.getD [] ∨ v = [] then none
  else some (joinStr commaChar (v.map sortItemToChars))

/-- Drop a required suffix from a character list, `none` when the list
does not end with it. -/
def dropSuffix (l suf : List Char) : Option (List Char) :=
  if suf.length ≤ l.length ∧ l.drop (l.length - suf.length) = suf then
    some (l.take (l.length - suf.length))
  else none

/-- Parse one `id.desc` / `id.asc` sorting entry. -/
def parseSortItem (s : String) : Option ColumnSort :=
  match dropSuffix s.data (".desc".data) with
  | some idc => some ⟨String.mk idc, true⟩
  | none =>
    match dropSuffix s.data (".asc".data) with
    | some idc => some ⟨String.mk idc, false⟩
    | none => none

/-- Map a fallible function over a list, failing when any element fails. -/
def mapOpt (f : α → Option β) : List α → Option (List β)
  | [] => some []
  | a :: as =>
    match f a, mapOpt f as with
    | some b, some bs => some (b :: bs)
    | _, _ => none

/-- Modelled from the spec: default sorting decoder (missing
`decodeSorting` of `encoder-decoder`).  Splits the delimited entry list;
missing or malformed input falls back to the configured default. -/
def decodeSorting (qv : Option QVal) (defaultValue : Option (List ColumnSort)) :
    List ColumnSort :=
  match qv with
  | some (.s str) =>
    match mapOpt parseSortItem (splitStr commaChar str) with
    | some l => l
    | none => defaultValue.getD []
  | _ => defaultValue.getD []

/-- Modelled from the spec: the built-in default pagination value used
when no `defaultValues.pagination` is configured (first page, page size
ten). -/
def defaultPagination : Pagination := ⟨0, 10⟩

/-- The two encoded pagination parameter values. -/
structure EncodedPagination where
  pageIndex : Option String
  pageSize : Option String
deriving DecidableEq, Repr

/-- Modelled from the spec: default pagination encoder (missing
`encodePagination` of `encoder-decoder`).  Two independent scalar values,
each omitted independently when equal to its configured default;
`pageIndex` is offset by plus one on encode. -/
def encodePagination (v : Pagination) (defaultValue : Option Pagination) :
    EncodedPagination :=
  let dv := defaultValue.getD defaultPagination
  ⟨if v.pageIndex = dv.pageIndex then none
    else some (String.mk (natToChars (v.pageIndex + 1))),
   if v.pageSize = dv.pageSize then none
    else some (String.mk (natToChars v.pageSize))⟩

/-- Modelled from the spec: default pagination decoder (missing
`decodePagination` of `encoder-decoder`).  `pageIndex` is offset by minus
one on decode and is never negative; absent or invalid input yields the
configured default, independently per sub-field. -/
def decodePagination (qi qs : Option QVal) (defaultValue : Option Pagination) :
    Pagination :=
  let dv := defaultValue.getD defaultPagination
  let pi :=
    match qi with
    | some (.s str) =>
      match parseNatChars str.data with
      | some n => if 1 ≤ n then n - 1 else dv.pageIndex
      | none => dv.pageIndex
    | _ => dv.pageIndex
  let ps :=
    match qs with
    | some (.s str) =>
      match parseNatChars str.data with
      | some n => n
      | none => dv.pageSize
    | _ => dv.pageSize
  ⟨pi, ps⟩

/-- One column filter entry in its dot-notation textual form
`id.<url-escaped JSON value>`. -/
def filterItemToChars (cf : ColumnFilter) : String :=
  cf.id ++ "." ++ String.mk (concatMap urlEncodeChar (jsonEncodeFV cf.value))

/-- Modelled from the spec: default column filters encoder (missing
`encodeColumnFilters` of `encoder-decoder`).  Dot-notation entries with a
JSON-serialized then URL-escaped value, delimiter-joined; the empty
sequence or a value equal to the configured default encodes to
`undefined`. -/
def encodeColumnFilters (v : List ColumnFilter)
    (defaultValue : Option (List ColumnFilter)) : Option String :=
  if v = defaultValue.getD [] ∨ v = [] then none
  else some (joinStr commaChar (v.map filterItemToChars))

/-- Parse one `id.<url-escaped JSON value>` column filter entry, splitting
at the first dot. -/
def parseFilterItem (s : String) : Option ColumnFilter :=
  match breakAtChar dotChar s.data with
  | some (idc, valc) =>
    match jsonParseFV (urlDecodeChars valc) with
    | some v => some ⟨String.mk idc, v⟩
    | none => none
  | none => none

/-- Modelled from the spec: default column filters decoder (missing
`decodeColumnFilters` of `encoder-decoder`).  Missing or malformed input
falls back to the configured default. -/
def decodeColumnFilters (qv : Option QVal)
    (defaultValue : Option (List ColumnFilter)) : List ColumnFilter :=
  match qv with
  | some (.s str) =>
    match mapOpt parseFilterItem (splitStr commaChar str) with
    | some l => l
    | none => defaultValue.getD []
  | _ => defaultValue.getD []

/-- Modelled from the spec: default column order encoder (missing
`encodeColumnOrder` of `encoder-decoder`).  A delimiter-joined id list;
the empty sequence or a value equal to the configured default encodes to
`undefined`. -/
def encodeColumnOrder (v : List String) (defaultValue : Option (List String)) :
    Option String :=
  if v = defaultValue.getD [] ∨ v = [] then none
  else some (joinStr commaChar v)

/-- Modelled from the spec: default column order decoder (missing
`decodeColumnOrder` of `encoder-decoder`). -/
def decodeColumnOrder (qv : Option QVal) (defaultValue : Option (List String)) :
    List String :=
  match qv with
  | some (.s str) => splitStr commaChar str
  | _ => defaultValue.getD []

/-- Modelled from the spec: default row selection encoder (missing
`encodeRowSelection` of `encoder-decoder`).  Only the ids mapped to
`true` are encoded, delimiter-joined; an empty mapping (no selected id)
or a value equal to the configured default encodes to `undefined`. -/
def encodeRowSelection (v : List (String × Bool))
    (defaultValue : Option (List (String × Bool))) : Option String :=
  let trueKeys := (v.filter (fun p => p.2)).map (fun p => p.1)
  if v = defaultValue.getD [] ∨ trueKeys = [] then none
  else some (joinStr commaChar trueKeys)

/-- Modelled from the spec: default row selection decoder (missing
`decodeRowSelection` of `encoder-decoder`).  Every listed id is mapped to
`true`. -/
def decodeRowSelection (qv : Option QVal)
    (defaultValue : Option (List (String × Bool))) : List (String × Bool) :=
  match qv with
  | some (.s str) => (splitStr commaChar str).map (fun k => (k, true))
  | _ => defaultValue.getD []

/-- Modelled from the spec: the query serializer
(`convertQueryToURLSearchParams` composed with `URLSearchParams.toString`,
both outside the snapshot).  Flattens array-valued entries into repeated
pairs, omits `undefined` entries, percent-escapes keys and values, and
joins `key=value` pairs with ampersands. -/
def flattenQuery (q : Query) : List (String × String) :=
  concatMap
    (fun (p : String × Option QVal) =>
      match p.2 with
      | none => []
      | some (.s v) => [(p.1, v)]
      | some (.l vs) => vs.map (fun v => (p.1, v)))
    q

/-- Serialized `key=value&key2=value2` form of a query object. -/
def serializeQuery (q : Query) : String :=
  joinStr (Char.ofNat 38)
    ((flattenQuery q).map (fun p =>
      String.mk (concatMap urlEncodeChar p.1.data) ++ "=" ++
        String.mk (concatMap urlEncodeChar p.2.data)))

/-! ### The batched state updater (`useBatchedStateUpdate.ts`)

The callback produced by `useBatchedStateUpdate` is embedded as a pure
function from the router snapshot, the options and the two state
snapshots to the list of navigation calls it issues (or the propagated
exception of a throwing override encoder).  The intermediate `query` /
`updates` objects and the performed delete operations are tracked
explicitly so that write/delete counts are observable. -/

/-- Intermediate state of the per-slice processing loop: the mutable copy
of the router query, the `updates` object, and the log of keys on which a
`delete` was performed. -/
structure SliceAcc where
  query : Query
  updates : Query
  dels : List String
deriving DecidableEq, Repr

/-- Default-codec branch of one slice: set the parameter in `updates` when
the encoding is defined, otherwise delete it from the query copy. -/
def applyDefaultEncoding (acc : SliceAcc) (param : String)
    (encoded : Option String) : SliceAcc :=
  match encoded with
  | some s => { acc with updates := qset acc.updates param (some (.s s)) }
  | none => { acc with query := qdel acc.query param, dels := acc.dels ++ [param] }

/-- Override branch of one slice: `Object.assign(updates, result)`. -/
def applyOverrideResult (acc : SliceAcc) (res : Query) : SliceAcc :=
  { acc with updates := qassign acc.updates res }

def encodersOf (o : Option Options) : Option Encoders :=
  o.bind (fun t => t.encoders)

def defaultValuesOf (o : Option Options) : Option DefaultValues :=
  o.bind (fun t => t.defaultValues)

/-- The shape shared by the five single-parameter slice blocks of the
source: when the slice changed, either run the override encoder and merge
its result, or apply the default encoding to the slice's parameter. -/
def sliceStep {τ : Type} (changed : Prop) [Decidable changed]
    (override : Option (τ → Except String Query)) (arg : τ)
    (param : String) (encoded : Option String) (acc : SliceAcc) :
    Except String SliceAcc :=
  if changed then
    match override with
    | some f => (f arg).map (applyOverrideResult acc)
    | none => pure (applyDefaultEncoding acc param encoded)
  else pure acc

/-- The shape of the pagination block of the source: one change check for
the whole slice, two independently written-or-deleted parameters. -/
def sliceStep2 {τ : Type} (changed : Prop) [Decidable changed]
    (override : Option (τ → Except String Query)) (arg : τ)
    (param1 param2 : String) (enc1 enc2 : Option String) (acc : SliceAcc) :
    Except String SliceAcc :=
  if changed then
    match override with
    | some f => (f arg).map (applyOverrideResult acc)
    | none =>
      pure (applyDefaultEncoding (applyDefaultEncoding acc param1 enc1)
        param2 enc2)
  else pure acc

/-- The `GlobalFilter` block of the source. -/
def stepGlobalFilter (o : Option Options) (oldS newS : State) (acc : SliceAcc) :
    Except String SliceAcc :=
  sliceStep (newS.globalFilter ≠ oldS.globalFilter)
    ((encodersOf o).bind (fun e => e.globalFilter)) newS.globalFilter
    (globalFilterParam o)
    (encodeGlobalFilter newS.globalFilter
      ((defaultValuesOf o).bind (fun d => d.globalFilter)))
    acc

/-- The `Sorting` block of the source (`JSON.stringify` comparison is
structural, order-sensitive equality). -/
def stepSorting (o : Option Options) (oldS newS : State) (acc : SliceAcc) :
    Except String SliceAcc :=
  sliceStep (newS.sorting ≠ oldS.sorting)
    ((encodersOf o).bind (fun e => e.sorting)) newS.sorting
    (sortingParam o)
    (encodeSorting newS.sorting
      ((defaultValuesOf o).bind (fun d => d.sorting)))
    acc

/-- The `Pagination` block of the source: triggered when either sub-field
changed; both encoded parameters are then written or deleted. -/
def stepPagination (o : Option Options) (oldS newS : State) (acc : SliceAcc) :
    Except String SliceAcc :=
  sliceStep2 (newS.pagination.pageIndex ≠ oldS.pagination.pageIndex ∨
      newS.pagination.pageSize ≠ oldS.pagination.pageSize)
    ((encodersOf o).bind (fun e => e.pagination)) newS.pagination
    (pageIndexParam o) (pageSizeParam o)
    (encodePagination newS.pagination
      ((defaultValuesOf o).bind (fun d => d.pagination))).pageIndex
    (encodePagination newS.pagination
      ((defaultValuesOf o).bind (fun d => d.pagination))).pageSize
    acc

/-- The `ColumnFilters` block of the source. -/
def stepColumnFilters (o : Option Options) (oldS newS : State) (acc : SliceAcc) :
    Except String SliceAcc :=
  sliceStep (newS.columnFilters ≠ oldS.columnFilters)
    ((encodersOf o).bind (fun e => e.columnFilters)) newS.columnFilters
    (columnFiltersParam o)
    (encodeColumnFilters newS.columnFilters
      ((defaultValuesOf o).bind (fun d => d.columnFilters)))
    acc

/-- The `ColumnOrder` block of the source. -/
def stepColumnOrder (o : Option Options) (oldS newS : State) (acc : SliceAcc) :
    Except String SliceAcc :=
  sliceStep (newS.columnOrder ≠ oldS.columnOrder)
    ((encodersOf o).bind (fun e => e.columnOrder)) newS.columnOrder
    (columnOrderParam o)
    (encodeColumnOrder newS.columnOrder
      ((defaultValuesOf o).bind (fun d => d.columnOrder)))
    acc

/-- The `RowSelection` block of the source. -/
def stepRowSelection (o : Option Options) (oldS newS : State) (acc : SliceAcc) :
    Except String SliceAcc :=
  sliceStep (newS.rowSelection ≠ oldS.rowSelection)
    ((encodersOf o).bind (fun e => e.rowSelection)) newS.rowSelection
    (rowSelectionParam o)
    (encodeRowSelection newS.rowSelection
      ((defaultValuesOf o).bind (fun d => d.rowSelection)))
    acc

/-- The six per-slice blocks run in source order over the copy of
`router.query` and the empty `updates` object. -/
def computeSlices (o : Option Options) (oldS newS : State) (query0 : Query) :
    Except String SliceAcc := do
  let acc1 ← stepGlobalFilter o oldS newS ⟨query0, [], []⟩
  let acc2 ← stepSorting o oldS newS acc1
  let acc3 ← stepPagination o oldS newS acc2
  let acc4 ← stepColumnFilters o oldS newS acc3
  let acc5 ← stepColumnOrder o oldS newS acc4
  stepRowSelection o oldS newS acc5

/-- `const finalQuery = { ...query, ...updates }`. -/
def finalQueryOf (acc : SliceAcc) : Query := qassign acc.query acc.updates

/-- `cleanQuery`: `finalQuery` with `undefined`-valued keys stripped. -/
def cleanQueryOf (acc : SliceAcc) : Query := qclean (finalQueryOf acc)

/-- The navigated URL: pathname plus a `?`-joined serialized query string,
with the `?` omitted when the string is empty. -/
def navUrl (pathname : String) (q : Query) : String :=
  let searchParams := serializeQuery q
  if searchParams = "" then pathname else pathname ++ "?" ++ searchParams

/-- The callback returned by `useBatchedStateUpdate`: on success it issues
the single navigation call listed in the result; a throwing override
encoder propagates as the error case and no navigation is issued. -/
def useBatchedStateUpdate (router : Router) (o : Option Options)
    (oldS newS : State) : Except String (List String) :=
  (computeSlices o oldS newS router.query).map
    (fun acc => [navUrl router.pathname (cleanQueryOf acc)])

/-! ### The composite state codec (spec sections 3 and 4.1)

Encoding a full `State` to a query object under the default parameter
names, and decoding it back, composed from the per-slice codecs above. -/

/-- Append a parameter entry when its encoded value is defined. -/
def qsetEnc (q : Query) (k : String) (v : Option String) : Query :=
  match v with
  | some s => q ++ [(k, some (.s s))]
  | none => q

/-- Encode every slice of a state to its query parameters (default
parameter names). -/
def encodeState (st : State) (d : Option DefaultValues) : Query :=
  let q1 := qsetEnc [] "globalFilter"
    (encodeGlobalFilter st.globalFilter (d.bind (fun t => t.globalFilter)))
  let q2 := qsetEnc q1 "sorting"
    (encodeSorting st.sorting (d.bind (fun t => t.sorting)))
  let ep := encodePagination st.pagination (d.bind (fun t => t.pagination))
  let q3 := qsetEnc q2 "pageIndex" ep.pageIndex
  let q4 := qsetEnc q3 "pageSize" ep.pageSize
  let q5 := qsetEnc q4 "columnFilters"
    (encodeColumnFilters st.columnFilters (d.bind (fun t => t.columnFilters)))
  let q6 := qsetEnc q5 "columnOrder"
    (encodeColumnOrder st.columnOrder (d.bind (fun t => t.columnOrder)))
  qsetEnc q6 "rowSelection"
    (encodeRowSelection st.rowSelection (d.bind (fun t => t.rowSelection)))

/-- The value of a key as seen by a decoder (a present-but-`undefined`
entry reads as `undefined`, like a missing one). -/
def qread (q : Query) (k : String) : Option QVal :=
  (qget q k).join

/-- Decode every slice of a state from its query parameters (default
parameter names). -/
def decodeState (q : Query) (d : Option DefaultValues) : State where
  globalFilter :=
    decodeGlobalFilter (qread q "globalFilter") (d.bind (fun t => t.globalFilter))
  sorting := decodeSorting (qread q "sorting") (d.bind (fun t => t.sorting))
  pagination := decodePagination (qread q "pageIndex") (qread q "pageSize")
    (d.bind (fun t => t.pagination))
  columnFilters :=
    decodeColumnFilters (qread q "columnFilters") (d.bind (fun t => t.columnFilters))
  columnOrder :=
    decodeColumnOrder (qread q "columnOrder") (d.bind (fun t => t.columnOrder))
  rowSelection :=
    decodeRowSelection (qread q "rowSelection") (d.bind (fun t => t.rowSelection))

/-! ### The debounce/scheduling layer (spec section 4.4)

Modelled from the spec: the debounce layer is not part of the repository
snapshot.  One slice with a configured delay is modelled as a
discrete-event run over time-ordered change events; a pending timer is
the pair of its expiry instant and the latest observed value. -/

/-- Modelled from the spec: one slice's debounce run (missing
debounce/scheduling source).  Change events `(time, value)` arrive in
nondecreasing time order; each change cancels any pending unexpired timer
and (re)starts the slice timer at `time + delay` with the latest value;
a pending timer whose expiry is reached fires one navigation carrying its
value (trailing edge only).  Returns the `(expiry, value)` navigation
list. -/
def debounceRun (delay : Nat) (pending : Option (Nat × α)) :
    List (Nat × α) → List (Nat × α)
  | [] =>
    match pending with
    | none => []
    | some p => [p]
  | (t, v) :: rest =>
    let fired :=
      match pending with
      | some (e, w) => if e ≤ t then [(e, w)] else []
      | none => []
    fired ++ debounceRun delay (some (t + delay, v)) rest

/-! ### Pointwise lemmas about query-object operations -/

def qkeys (q : Query) : List String := q.map Prod.fst

/-! ### Keys touched by an update, and whole-run lemmas -/

def gfKeys (o : Option Options) (oldS newS : State) : List String :=
  if newS.globalFilter ≠ oldS.globalFilter then [globalFilterParam o] else []

def sortKeys (o : Option Options) (oldS newS : State) : List String :=
  if newS.sorting ≠ oldS.sorting then [sortingParam o] else []

def pagKeys (o : Option Options) (oldS newS : State) : List String :=
  if newS.pagination.pageIndex ≠ oldS.pagination.pageIndex ∨
      newS.pagination.pageSize ≠ oldS.pagination.pageSize then
    [pageIndexParam o, pageSizeParam o]
  else []

def cfKeys (o : Option Options) (oldS newS : State) : List String :=
  if newS.columnFilters ≠ oldS.columnFilters then [columnFiltersParam o] else []

def coKeys (o : Option Options) (oldS newS : State) : List String :=
  if newS.columnOrder ≠ oldS.columnOrder then [columnOrderParam o] else []

def rsKeys (o : Option Options) (oldS newS : State) : List String :=
  if newS.rowSelection ≠ oldS.rowSelection then [rowSelectionParam o] else []

/-- The query parameter names belonging to the slices that changed between
the two snapshots (the only keys an overrideless update may touch). -/
def changedKeys (o : Option Options) (oldS newS : State) : List String :=
  gfKeys o oldS newS ++ sortKeys o oldS newS ++ pagKeys o oldS newS ++
    cfKeys o oldS newS ++ coKeys o oldS newS ++ rsKeys o oldS newS

/-- No override encoder is configured for any slice. -/
def overridesNone (o : Option Options) : Prop :=
  (encodersOf o).bind (fun e => e.globalFilter) = none ∧
  (encodersOf o).bind (fun e => e.sorting) = none ∧
  (encodersOf o).bind (fun e => e.pagination) = none ∧
  (encodersOf o).bind (fun e => e.columnFilters) = none ∧
  (encodersOf o).bind (fun e => e.columnOrder) = none ∧
  (encodersOf o).bind (fun e => e.rowSelection) = none

/-- The initial table state used by the concrete test scenarios: no
filters, default pagination, nothing sorted, ordered or selected. -/
def initialState : State := ⟨none, [], ⟨0, 10⟩, [], [], []⟩

/-- The state holding the test scenario's global filter and column
filter. -/
def stateWithTestFilters : State :=
  { initialState with
    globalFilter := some "test"
    columnFilters := [⟨"name", FilterValue.str "John"⟩] }

/-- Options carrying a global filter override encoder that always
throws. -/
def throwingOptions : Options :=
  { encoders := some { globalFilter := some (fun _ => Except.error "boom") } }

/-- Options carrying a global filter override encoder that returns the
empty record. -/
def emptyRecordOverrideOptions : Options :=
  { encoders := some { globalFilter := some (fun _ => Except.ok []) } }

/-- A state in which no field equals its configured default, yet the
composite round trip fails: its row selection holds one unselected
(`false`) entry, which the row selection encoder drops. -/
def cexState : State :=
  ⟨some "g", [⟨"a", true⟩], ⟨1, 5⟩, [⟨"c", FilterValue.str "v"⟩], ["x"],
    [("r", false)]⟩

/-- A fully well-formed state for the round-trip witness. -/
def okState : State :=
  ⟨some "g", [⟨"a", true⟩, ⟨"b", false⟩], ⟨1, 5⟩,
    [⟨"c", FilterValue.str "v w"⟩, ⟨"d", FilterValue.num (-3)⟩],
    ["x", "y"], [("r", true)]⟩

theorem concatMap_nil (f : α → List β) : concatMap f [] = [] := rfl

theorem concatMap_cons (f : α → List β) (a : α) (as : List α) :
    concatMap f (a :: as) = f a ++ concatMap f as := rfl

theorem splitAux_no_sep (sep : Char) (t : List Char) (h : sep ∉ t) :
    ∀ acc, splitAux sep t acc = [String.mk (acc.reverse ++ t)] := by
  induction t with
  | nil => intro acc; simp [splitAux]
  | cons c cs ih =>
    intro acc
    have hc : c ≠ sep := fun hcs => h (hcs ▸ List.mem_cons_self c cs)
    have hcs : sep ∉ cs := fun hm => h (List.mem_cons_of_mem c hm)
    simp [splitAux, hc, ih hcs]

theorem splitAux_append_sep (sep : Char) (t rest : List Char) (h : sep ∉ t) :
    ∀ acc, splitAux sep (t ++ sep :: rest) acc =
      String.mk (acc.reverse ++ t) :: splitAux sep rest [] := by
  induction t with
  | nil => intro acc; simp [splitAux]
  | cons c cs ih =>
    intro acc
    have hc : c ≠ sep := fun hcs => h (hcs ▸ List.mem_cons_self c cs)
    have hcs : sep ∉ cs := fun hm => h (List.mem_cons_of_mem c hm)
    simp [splitAux, hc, ih hcs]

theorem string_mk_data (s : String) : String.mk s.data = s := rfl

/-- Splitting undoes joining as long as the list is nonempty and no token
contains the separator. -/
theorem splitStr_joinStr (sep : Char) (xs : List String) (hne : xs ≠ [])
    (h : ∀ x ∈ xs, sep ∉ x.data) : splitStr sep (joinStr sep xs) = xs := by
  induction xs with
  | nil => exact absurd rfl hne
  | cons x ys ih =>
    cases ys with
    | nil =>
      have hx : sep ∈ x.data → False := h x (List.mem_cons_self x [])
      simp [joinStr, splitStr, splitAux_no_sep sep x.data hx, string_mk_data]
    | cons y zs =>
      have hx : sep ∉ x.data := h x (List.mem_cons_self x (y :: zs))
      have hrec : ∀ z ∈ y :: zs, sep ∉ z.data :=
        fun z hz => h z (List.mem_cons_of_mem x hz)
      have hne2 : (y :: zs : List String) ≠ [] := by simp
      have hdata : (joinStr sep (x :: y :: zs)).data =
          x.data ++ sep :: (joinStr sep (y :: zs)).data := by
        show (x ++ String.singleton sep ++ joinStr sep (y :: zs)).data = _
        simp [String.data_append, String.singleton]
      have := ih hne2 hrec
      simp only [splitStr] at this ⊢
      rw [hdata, splitAux_append_sep sep x.data _ hx, this]
      simp [string_mk_data]

theorem breakAtChar_append (sep : Char) (pre post : List Char)
    (h : sep ∉ pre) : breakAtChar sep (pre ++ sep :: post) = some (pre, post) := by
  induction pre with
  | nil => simp [breakAtChar]
  | cons c cs ih =>
    have hc : c ≠ sep := fun hcs => h (hcs ▸ List.mem_cons_self c cs)
    have hcs : sep ∉ cs := fun hm => h (List.mem_cons_of_mem c hm)
    simp [breakAtChar, hc, ih hcs]

theorem digitVal_digitChar : ∀ d < 10, digitVal (digitChar d) = some d := by decide

theorem natToChars_ne_nil (n : Nat) : natToChars n ≠ [] := by
  rw [natToChars, natToCharsAux]
  split <;> simp

theorem natToCharsAux_digits (fuel : Nat) :
    ∀ n, ∀ c ∈ natToCharsAux fuel n, ∃ d, d < 10 ∧ c = digitChar d := by
  induction fuel with
  | zero => intro n c hc; simp [natToCharsAux] at hc
  | succ f ih =>
    intro n c hc
    rw [natToCharsAux] at hc
    split at hc
    · next h => simp at hc; exact ⟨n, h, hc⟩
    · next h =>
      rcases List.mem_append.1 hc with h1 | h2
      · exact ih (n / 10) c h1
      · simp at h2; exact ⟨n % 10, Nat.mod_lt _ (by omega), h2⟩

theorem natToChars_digits (n : Nat) :
    ∀ c ∈ natToChars n, ∃ d, d < 10 ∧ c = digitChar d :=
  natToCharsAux_digits (n + 1) n

theorem parseNatAux_append (a b : List Char) (acc m : Nat)
    (h : parseNatAux a acc = some m) :
    parseNatAux (a ++ b) acc = parseNatAux b m := by
  induction a generalizing acc with
  | nil => simp [parseNatAux] at h; simp [h]
  | cons c cs ih =>
    simp only [parseNatAux, List.cons_append] at h ⊢
    cases hd : digitVal c with
    | none => rw [hd] at h; exact absurd h (by simp)
    | some d => rw [hd] at h; exact ih _ h

theorem parseNatAux_natToCharsAux (fuel : Nat) :
    ∀ n, n < fuel → ∀ acc, parseNatAux (natToCharsAux fuel n) acc =
      some (acc * 10 ^ (natToCharsAux fuel n).length + n) := by
  induction fuel with
  | zero => intro n hn; omega
  | succ f ih =>
    intro n hn acc
    rw [natToCharsAux]
    split
    · next h =>
      simp [parseNatAux, digitVal_digitChar n h]
      omega
    · next h =>
      have hdiv : n / 10 < f := by
        have : n / 10 < n := Nat.div_lt_self (by omega) (by omega)
        omega
      have h1 := ih (n / 10) hdiv acc
      rw [parseNatAux_append _ _ _ _ h1]
      simp only [parseNatAux, digitVal_digitChar (n % 10) (Nat.mod_lt _ (by omega)),
        List.length_append, List.length_cons, List.length_nil, Nat.zero_add,
        pow_succ, Option.some_inj]
      have key : 10 * (acc * 10 ^ (natToCharsAux f (n / 10)).length + n / 10) + n % 10 =
          acc * (10 ^ (natToCharsAux f (n / 10)).length * 10) +
            (10 * (n / 10) + n % 10) := by ring
      rw [key, Nat.div_add_mod]

theorem parseNatChars_natToChars (n : Nat) :
    parseNatChars (natToChars n) = some n := by
  have h0 := parseNatAux_natToCharsAux (n + 1) n (by omega) 0
  rw [← natToChars] at h0
  simp at h0
  simp [parseNatChars, List.isEmpty_iff, natToChars_ne_nil n, h0]

theorem digitChar_ne_minus : ∀ d < 10, digitChar d ≠ Char.ofNat 45 := by decide

theorem parseIntChars_intToChars (n : Int) :
    parseIntChars (intToChars n) = some n := by
  rw [intToChars]
  split
  · next h =>
    simp [parseIntChars, parseNatChars_natToChars, abs_of_neg h]
  · next h =>
    cases hcs : natToChars n.toNat with
    | nil => exact absurd hcs (natToChars_ne_nil _)
    | cons c rest =>
      have hcmem : c ∈ natToChars n.toNat := by rw [hcs]; simp
      obtain ⟨d, hd, hcd⟩ := natToChars_digits _ c hcmem
      have hne : c ≠ Char.ofNat 45 := hcd ▸ digitChar_ne_minus d hd
      have hp := parseNatChars_natToChars n.toNat
      rw [hcs] at hp
      rw [parseIntChars, if_neg hne, hp]
      simp
      omega

theorem urlDecodeChars_nil : urlDecodeChars [] = [] := rfl

theorem urlDecodeChars_cons_ne (c : Char) (rest : List Char)
    (h : c ≠ Char.ofNat 37) :
    urlDecodeChars (c :: rest) = c :: urlDecodeChars rest := by
  cases rest with
  | nil => simp [urlDecodeChars]
  | cons d rest2 =>
    cases rest2 with
    | nil => simp [urlDecodeChars]
    | cons e rest3 => simp [urlDecodeChars, h]

theorem hexVal_hexDigitChar : ∀ n < 16, hexVal (hexDigitChar n) = some n := by decide

theorem urlDecodeChars_pct (c1 c2 : Char) (rest : List Char) (h1v h2v : Nat)
    (h1 : hexVal c1 = some h1v) (h2 : hexVal c2 = some h2v) :
    urlDecodeChars (Char.ofNat 37 :: c1 :: c2 :: rest) =
      Char.ofNat (16 * h1v + h2v) :: urlDecodeChars rest := by
  simp [urlDecodeChars, h1, h2]

theorem unreserved_ne_pct (c : Char) (h : isUnreserved c = true) :
    c ≠ Char.ofNat 37 := by
  intro hc
  rw [hc] at h
  exact absurd h (by decide)

theorem urlDecode_urlEncodeChar (c : Char) (rest : List Char) :
    urlDecodeChars (urlEncodeChar c ++ rest) = c :: urlDecodeChars rest := by
  rw [urlEncodeChar]
  split
  · next h =>
    simp only [List.cons_append, List.nil_append]
    exact urlDecodeChars_cons_ne c rest (unreserved_ne_pct c h)
  · split
    · next h h256 =>
      have h16 : c.toNat / 16 < 16 := by omega
      have hm16 : c.toNat % 16 < 16 := Nat.mod_lt _ (by omega)
      simp only [hexPair, List.cons_append, List.nil_append]
      rw [urlDecodeChars_pct _ _ rest _ _ (hexVal_hexDigitChar _ h16)
        (hexVal_hexDigitChar _ hm16)]
      rw [Nat.div_add_mod c.toNat 16, Char.ofNat_toNat]
    · next h h256 =>
      have hne : c ≠ Char.ofNat 37 := by
        intro hc
        rw [hc] at h256
        exact h256 (by decide)
      simp only [List.cons_append, List.nil_append]
      exact urlDecodeChars_cons_ne c rest hne

/-- Percent-decoding undoes percent-encoding. -/
theorem urlDecode_urlEncode (l : List Char) :
    urlDecodeChars (concatMap urlEncodeChar l) = l := by
  induction l with
  | nil => rw [concatMap_nil, urlDecodeChars_nil]
  | cons c cs ih =>
    rw [concatMap_cons, urlDecode_urlEncodeChar, ih]

theorem mem_hexPair_hexdigit (n : Nat) (h : n < 256) :
    ∀ c ∈ hexPair n, ∃ d, d < 16 ∧ c = hexDigitChar d := by
  intro c hc
  rcases List.mem_cons.1 hc with h1 | h2
  · exact ⟨n / 16, by omega, h1⟩
  · rw [List.mem_singleton] at h2
    exact ⟨n % 16, Nat.mod_lt _ (by omega), h2⟩

/-- Characters that are not themselves kept verbatim by the percent
encoder never appear in its output for any character. -/
theorem not_mem_urlEncodeChar (x c : Char) (hx : isUnreserved x = false)
    (hpct : x ≠ Char.ofNat 37) (hhex : ∀ d < 16, hexDigitChar d ≠ x)
    (hlow : x.toNat < 256) : x ∉ urlEncodeChar c := by
  rw [urlEncodeChar]
  split
  · next h =>
    intro hm
    rw [List.mem_singleton] at hm
    rw [← hm] at h
    rw [hx] at h
    exact absurd h (by decide)
  · split
    · next h h256 =>
      intro hm
      rcases List.mem_cons.1 hm with hm | hm
      · exact hpct hm
      · obtain ⟨d, hd, hcd⟩ := mem_hexPair_hexdigit c.toNat h256 _ hm
        exact hhex d hd hcd.symm
    · next h h256 =>
      intro hm
      rw [List.mem_singleton] at hm
      rw [← hm] at h256
      exact h256 hlow

/-- No comma ever appears in percent-encoded output. -/
theorem comma_not_mem_urlEncodeChar (c : Char) :
    Char.ofNat 44 ∉ urlEncodeChar c :=
  not_mem_urlEncodeChar _ c (by decide) (by decide) (by decide) (by decide)

theorem parseJsonStr_escape (s : List Char) :
    ∀ acc, parseJsonStr (escapeJson s ++ [Char.ofNat 34]) acc =
      some (String.mk (acc.reverse ++ s)) := by
  induction s with
  | nil => intro acc; simp [escapeJson, parseJsonStr]
  | cons c cs ih =>
    intro acc
    rw [escapeJson]
    split
    · next h =>
      simp [parseJsonStr, h, ih (c :: acc)]
    · next h =>
      have hc92 : c ≠ Char.ofNat 92 := fun hc => h (Or.inr hc)
      have hc34 : c ≠ Char.ofNat 34 := fun hc => h (Or.inl hc)
      rw [List.cons_append, parseJsonStr.eq_def]
      simp [hc92, hc34, ih (c :: acc)]

theorem intToChars_ne_nil (n : Int) : intToChars n ≠ [] := by
  rw [intToChars]
  split
  · simp
  · exact natToChars_ne_nil _

theorem intToChars_mem (n : Int) :
    ∀ c ∈ intToChars n, c = Char.ofNat 45 ∨ ∃ d, d < 10 ∧ c = digitChar d := by
  intro c hc
  rw [intToChars] at hc
  split at hc
  · rcases List.mem_cons.1 hc with h1 | h2
    · exact Or.inl h1
    · exact Or.inr (natToChars_digits _ c h2)
  · exact Or.inr (natToChars_digits _ c hc)

theorem intToChars_head_ne_quote (n : Int) (c : Char) (rest : List Char)
    (hcs : intToChars n = c :: rest) : c ≠ Char.ofNat 34 := by
  have hcmem : c ∈ intToChars n := by rw [hcs]; simp
  rcases intToChars_mem n c hcmem with h1 | ⟨d, hd, h2⟩
  · rw [h1]; decide
  · rw [h2]
    have : ∀ d < 10, digitChar d ≠ Char.ofNat 34 := by decide
    exact this d hd

/-- JSON parsing undoes JSON serialization on the modelled scalars. -/
theorem jsonParse_jsonEncodeFV (v : FilterValue) :
    jsonParseFV (jsonEncodeFV v) = some v := by
  cases v with
  | str s =>
    rw [jsonEncodeFV, jsonParseFV]
    simp [parseJsonStr_escape s.data [], string_mk_data]
  | num n =>
    rw [jsonEncodeFV]
    cases hcs : intToChars n with
    | nil => exact absurd hcs (intToChars_ne_nil n)
    | cons c rest =>
      have hne := intToChars_head_ne_quote n c rest hcs
      have hp := parseIntChars_intToChars n
      rw [hcs] at hp
      rw [jsonParseFV, if_neg hne, hp]
      rfl

theorem qkeys_nil : qkeys [] = [] := rfl

theorem qkeys_cons (p : String × Option QVal) (ps : Query) :
    qkeys (p :: ps) = p.1 :: qkeys ps := rfl

theorem qhas_false_not_mem (q : Query) (k : String) (h : qhas q k = false) :
    k ∉ qkeys q := by
  induction q with
  | nil => simp [qkeys]
  | cons p ps ih =>
    rw [qhas, Bool.or_eq_false_iff] at h
    rw [qkeys_cons, List.mem_cons]
    rintro (h1 | h2)
    · have hb : (p.1 == k) = true := by simpa using h1.symm
      rw [h.1] at hb
      exact absurd hb (by simp)
    · exact ih h.2 h2

theorem qget_eq_none_of_not_mem (q : Query) (k : String) (h : k ∉ qkeys q) :
    qget q k = none := by
  induction q with
  | nil => rfl
  | cons p ps ih =>
    rw [qget, if_neg, ih]
    · intro hm; exact h (by simp [qkeys] at hm ⊢; exact Or.inr hm)
    · intro he; exact h (by simp [qkeys, he])

theorem qget_append_not_has (q rest : Query) (k : String)
    (h : qhas q k = false) : qget (q ++ rest) k = qget rest k := by
  induction q with
  | nil => rfl
  | cons p ps ih =>
    rw [qhas, Bool.or_eq_false_iff] at h
    rw [List.cons_append, qget, if_neg (by simpa using h.1), ih h.2]

theorem qget_qreplace_self (q : Query) (k : String) (v : Option QVal)
    (h : qhas q k = true) : qget (qreplace q k v) k = some v := by
  induction q with
  | nil => simp [qhas] at h
  | cons p ps ih =>
    rw [qreplace]
    by_cases hp : p.1 = k
    · rw [if_pos hp, qget, if_pos rfl]
    · rw [if_neg hp, qget, if_neg hp]
      rw [qhas, Bool.or_eq_true_iff] at h
      rcases h with h1 | h2
      · exact absurd (by simpa using h1) hp
      · exact ih h2

theorem qget_qreplace_ne (q : Query) (k k' : String) (v : Option QVal)
    (h : k' ≠ k) : qget (qreplace q k v) k' = qget q k' := by
  induction q with
  | nil => rfl
  | cons p ps ih =>
    rw [qreplace]
    by_cases hp : p.1 = k
    · rw [if_pos hp, qget, if_neg (Ne.symm h), qget, if_neg (by rw [hp]; exact Ne.symm h), ih]
    · rw [if_neg hp, qget, qget]
      by_cases hp' : p.1 = k'
      · rw [if_pos hp', if_pos hp']
      · rw [if_neg hp', if_neg hp', ih]

theorem qget_qset_self (q : Query) (k : String) (v : Option QVal) :
    qget (qset q k v) k = some v := by
  rw [qset]
  split
  · next h => exact qget_qreplace_self q k v h
  · next h =>
    rw [qget_append_not_has q _ k (by simpa using h), qget, if_pos rfl]

theorem qget_append_single_ne (q : Query) (k k' : String) (v : Option QVal)
    (h : k' ≠ k) : qget (q ++ [(k, v)]) k' = qget q k' := by
  induction q with
  | nil => simp [qget, Ne.symm h]
  | cons p ps ih =>
    rw [List.cons_append, qget, qget]
    by_cases hp : p.1 = k'
    · rw [if_pos hp, if_pos hp]
    · rw [if_neg hp, if_neg hp, ih]

theorem qget_qset_ne (q : Query) (k k' : String) (v : Option QVal)
    (h : k' ≠ k) : qget (qset q k v) k' = qget q k' := by
  rw [qset]
  split
  · exact qget_qreplace_ne q k k' v h
  · exact qget_append_single_ne q k k' v h

theorem qget_qdel_self (q : Query) (k : String) : qget (qdel q k) k = none := by
  induction q with
  | nil => rfl
  | cons p ps ih =>
    rw [qdel]
    by_cases hp : p.1 = k
    · rw [if_pos hp]; exact ih
    · rw [if_neg hp, qget, if_neg hp]; exact ih

theorem qget_qdel_ne (q : Query) (k k' : String) (h : k' ≠ k) :
    qget (qdel q k) k' = qget q k' := by
  induction q with
  | nil => rfl
  | cons p ps ih =>
    rw [qdel, qget]
    by_cases hp : p.1 = k
    · rw [if_pos hp, if_neg (by rw [hp]; exact Ne.symm h), ih]
    · rw [if_neg hp, qget]
      by_cases hp' : p.1 = k'
      · rw [if_pos hp', if_pos hp']
      · rw [if_neg hp', if_neg hp', ih]

theorem qassign_nil (q : Query) : qassign q [] = q := rfl

theorem qget_qassign_not_mem (q u : Query) (k : String)
    (h : k ∉ qkeys u) : qget (qassign q u) k = qget q k := by
  induction u generalizing q with
  | nil => rfl
  | cons a as ih =>
    have hka : k ≠ a.1 := fun hk => h (by simp [qkeys, hk])
    have hrest : k ∉ qkeys as := by
      intro hk
      refine h ?_
      simp [qkeys] at hk ⊢
      exact Or.inr hk
    show qget (qassign (qset q a.1 a.2) as) k = qget q k
    rw [ih (qset q a.1 a.2) hrest, qget_qset_ne q a.1 k a.2 hka]

theorem qget_qclean_defined (q : Query) (k : String) (v : Option QVal)
    (h : qget (qclean q) k = some v) : v ≠ none := by
  induction q with
  | nil => exact absurd h (by simp [qclean, qget])
  | cons p ps ih =>
    rw [qclean] at h
    by_cases hp : p.2 = none
    · rw [if_pos hp] at h; exact ih h
    · rw [if_neg hp, qget] at h
      by_cases hk : p.1 = k
      · rw [if_pos hk] at h
        intro hv
        rw [hv] at h
        exact hp (by simpa using h)
      · rw [if_neg hk] at h; exact ih h

theorem qkeys_qclean_sub (q : Query) :
    ∀ x ∈ qkeys (qclean q), x ∈ qkeys q := by
  induction q with
  | nil => simp [qclean]
  | cons p ps ih =>
    intro x hx
    rw [qclean] at hx
    rw [qkeys_cons, List.mem_cons]
    by_cases hp : p.2 = none
    · rw [if_pos hp] at hx
      exact Or.inr (ih x hx)
    · rw [if_neg hp, qkeys_cons, List.mem_cons] at hx
      rcases hx with h1 | h2
      · exact Or.inl h1
      · exact Or.inr (ih x h2)

theorem qget_qclean_none (q : Query) (k : String)
    (hnd : (qkeys q).Nodup) (h : qget q k = some none) :
    qget (qclean q) k = none := by
  induction q with
  | nil => rfl
  | cons p ps ih =>
    rw [qkeys_cons, List.nodup_cons] at hnd
    rw [qget] at h
    rw [qclean]
    by_cases hk : p.1 = k
    · rw [if_pos hk] at h
      have hp2 : p.2 = none := by simpa using h
      rw [if_pos hp2]
      have hkn : k ∉ qkeys ps := by rw [← hk]; exact hnd.1
      exact qget_eq_none_of_not_mem _ _
        (fun hm => hkn (qkeys_qclean_sub ps k hm))
    · rw [if_neg hk] at h
      by_cases hp2 : p.2 = none
      · rw [if_pos hp2]; exact ih hnd.2 h
      · rw [if_neg hp2, qget, if_neg hk]; exact ih hnd.2 h

theorem qget_qclean_some (q : Query) (k : String) (v : QVal)
    (h : qget q k = some (some v)) : qget (qclean q) k = some (some v) := by
  induction q with
  | nil => exact absurd h (by simp [qget])
  | cons p ps ih =>
    rw [qget] at h
    rw [qclean]
    by_cases hk : p.1 = k
    · rw [if_pos hk] at h
      have hp2 : p.2 = some v := by simpa using h
      rw [if_neg (by simp [hp2]), qget, if_pos hk, hp2]
    · rw [if_neg hk] at h
      by_cases hp2 : p.2 = none
      · rw [if_pos hp2]; exact ih h
      · rw [if_neg hp2, qget, if_neg hk]; exact ih h

theorem qget_eq_none_iff_not_mem (q : Query) (k : String) :
    qget q k = none ↔ k ∉ qkeys q := by
  constructor
  · intro h hm
    induction q with
    | nil => simp [qkeys] at hm
    | cons p ps ih =>
      rw [qget] at h
      rw [qkeys_cons, List.mem_cons] at hm
      by_cases hp : p.1 = k
      · rw [if_pos hp] at h; exact absurd h (by simp)
      · rw [if_neg hp] at h
        rcases hm with h1 | h2
        · exact hp h1.symm
        · exact ih h h2
  · exact qget_eq_none_of_not_mem q k

theorem qget_qclean_of_none (q : Query) (k : String) (h : qget q k = none) :
    qget (qclean q) k = none := by
  rw [qget_eq_none_iff_not_mem] at h ⊢
  exact fun hm => h (qkeys_qclean_sub q k hm)

theorem qkeys_qreplace (q : Query) (k : String) (v : Option QVal) :
    qkeys (qreplace q k v) = qkeys q := by
  induction q with
  | nil => rfl
  | cons p ps ih =>
    rw [qreplace]
    by_cases hp : p.1 = k
    · rw [if_pos hp, qkeys_cons, qkeys_cons, ih, hp]
    · rw [if_neg hp, qkeys_cons, qkeys_cons, ih]

theorem nodup_qset (q : Query) (k : String) (v : Option QVal)
    (h : (qkeys q).Nodup) : (qkeys (qset q k v)).Nodup := by
  rw [qset]
  split
  · rw [qkeys_qreplace]; exact h
  · next hno =>
    have hkn : k ∉ qkeys q := qhas_false_not_mem q k (by simpa using hno)
    have : qkeys (q ++ [(k, v)]) = qkeys q ++ [k] := by
      simp [qkeys]
    rw [this]
    simp [List.nodup_append, h, hkn]

theorem nodup_qassign (q u : Query) (h : (qkeys q).Nodup) :
    (qkeys (qassign q u)).Nodup := by
  induction u generalizing q with
  | nil => exact h
  | cons a as ih =>
    show (qkeys (qassign (qset q a.1 a.2) as)).Nodup
    exact ih _ (nodup_qset q a.1 a.2 h)

theorem qkeys_qdel_sub (q : Query) (k : String) :
    ∀ x ∈ qkeys (qdel q k), x ∈ qkeys q := by
  induction q with
  | nil => simp [qdel]
  | cons p ps ih =>
    intro x hx
    rw [qdel] at hx
    rw [qkeys_cons, List.mem_cons]
    by_cases hp : p.1 = k
    · rw [if_pos hp] at hx
      exact Or.inr (ih x hx)
    · rw [if_neg hp, qkeys_cons, List.mem_cons] at hx
      rcases hx with h1 | h2
      · exact Or.inl h1
      · exact Or.inr (ih x h2)

theorem nodup_qdel (q : Query) (k : String) (h : (qkeys q).Nodup) :
    (qkeys (qdel q k)).Nodup := by
  induction q with
  | nil => exact h
  | cons p ps ih =>
    rw [qkeys_cons, List.nodup_cons] at h
    rw [qdel]
    by_cases hp : p.1 = k
    · rw [if_pos hp]; exact ih h.2
    · rw [if_neg hp, qkeys_cons, List.nodup_cons]
      exact ⟨fun hm => h.1 (qkeys_qdel_sub ps k p.1 hm), ih h.2⟩

/-! ### Lemmas about the slice-step combinators -/

theorem sliceStep_unchanged {τ : Type} (changed : Prop) [Decidable changed]
    (ov : Option (τ → Except String Query)) (arg : τ) (p : String)
    (e : Option String) (acc : SliceAcc) (h : ¬changed) :
    sliceStep changed ov arg p e acc = Except.ok acc := by
  rw [sliceStep.eq_def, if_neg h]
  rfl

theorem sliceStep_default {τ : Type} (changed : Prop) [Decidable changed]
    (ov : Option (τ → Except String Query)) (arg : τ) (p : String)
    (e : Option String) (acc : SliceAcc) (h : changed) (hov : ov = none) :
    sliceStep changed ov arg p e acc =
      Except.ok (applyDefaultEncoding acc p e) := by
  rw [sliceStep.eq_def, if_pos h, hov]
  rfl

theorem sliceStep_override {τ : Type} (changed : Prop) [Decidable changed]
    (ov : Option (τ → Except String Query)) (arg : τ) (p : String)
    (e : Option String) (acc : SliceAcc) (f : τ → Except String Query)
    (h : changed) (hov : ov = some f) :
    sliceStep changed ov arg p e acc =
      (f arg).map (applyOverrideResult acc) := by
  rw [sliceStep.eq_def, if_pos h, hov]

theorem sliceStep2_unchanged {τ : Type} (changed : Prop) [Decidable changed]
    (ov : Option (τ → Except String Query)) (arg : τ) (p1 p2 : String)
    (e1 e2 : Option String) (acc : SliceAcc) (h : ¬changed) :
    sliceStep2 changed ov arg p1 p2 e1 e2 acc = Except.ok acc := by
  rw [sliceStep2.eq_def, if_neg h]
  rfl

theorem sliceStep2_default {τ : Type} (changed : Prop) [Decidable changed]
    (ov : Option (τ → Except String Query)) (arg : τ) (p1 p2 : String)
    (e1 e2 : Option String) (acc : SliceAcc) (h : changed) (hov : ov = none) :
    sliceStep2 changed ov arg p1 p2 e1 e2 acc =
      Except.ok (applyDefaultEncoding (applyDefaultEncoding acc p1 e1) p2 e2) := by
  rw [sliceStep2.eq_def, if_pos h, hov]
  rfl

theorem sliceStep2_override {τ : Type} (changed : Prop) [Decidable changed]
    (ov : Option (τ → Except String Query)) (arg : τ) (p1 p2 : String)
    (e1 e2 : Option String) (acc : SliceAcc) (f : τ → Except String Query)
    (h : changed) (hov : ov = some f) :
    sliceStep2 changed ov arg p1 p2 e1 e2 acc =
      (f arg).map (applyOverrideResult acc) := by
  rw [sliceStep2.eq_def, if_pos h, hov]

/-- Every successful slice step leaves the accumulator unchanged, merges
an override result into `updates`, or applies the default encoding. -/
theorem sliceStep_ok_cases {τ : Type} (changed : Prop) [Decidable changed]
    (ov : Option (τ → Except String Query)) (arg : τ) (p : String)
    (e : Option String) (acc acc' : SliceAcc)
    (h : sliceStep changed ov arg p e acc = Except.ok acc') :
    acc' = acc ∨ (∃ res, acc' = applyOverrideResult acc res) ∨
      (changed ∧ ov = none ∧ acc' = applyDefaultEncoding acc p e) := by
  rw [sliceStep.eq_def] at h
  split at h
  · next hch =>
    cases hov : ov with
    | some f =>
      rw [hov] at h
      dsimp only at h
      cases hf : f arg with
      | error msg => rw [hf] at h; exact absurd h (by simp [Except.map])
      | ok res =>
        rw [hf] at h
        refine Or.inr (Or.inl ⟨res, ?_⟩)
        have : Except.ok (ε := String) (applyOverrideResult acc res) = Except.ok acc' := h
        exact (Except.ok.inj this).symm
    | none =>
      rw [hov] at h
      dsimp only at h
      refine Or.inr (Or.inr ⟨‹changed›, rfl, ?_⟩)
      have : Except.ok (ε := String) (applyDefaultEncoding acc p e) = Except.ok acc' := h
      exact (Except.ok.inj this).symm
  · exact Or.inl (Except.ok.inj h).symm

theorem sliceStep2_ok_cases {τ : Type} (changed : Prop) [Decidable changed]
    (ov : Option (τ → Except String Query)) (arg : τ) (p1 p2 : String)
    (e1 e2 : Option String) (acc acc' : SliceAcc)
    (h : sliceStep2 changed ov arg p1 p2 e1 e2 acc = Except.ok acc') :
    acc' = acc ∨ (∃ res, acc' = applyOverrideResult acc res) ∨
      (changed ∧ ov = none ∧
        acc' = applyDefaultEncoding (applyDefaultEncoding acc p1 e1) p2 e2) := by
  rw [sliceStep2.eq_def] at h
  split at h
  · next hch =>
    cases hov : ov with
    | some f =>
      rw [hov] at h
      dsimp only at h
      cases hf : f arg with
      | error msg => rw [hf] at h; exact absurd h (by simp [Except.map])
      | ok res =>
        rw [hf] at h
        refine Or.inr (Or.inl ⟨res, ?_⟩)
        have : Except.ok (ε := String)
            (applyOverrideResult acc res) = Except.ok acc' := h
        exact (Except.ok.inj this).symm
    | none =>
      rw [hov] at h
      dsimp only at h
      refine Or.inr (Or.inr ⟨‹changed›, rfl, ?_⟩)
      have : Except.ok (ε := String)
          (applyDefaultEncoding (applyDefaultEncoding acc p1 e1) p2 e2) =
            Except.ok acc' := h
      exact (Except.ok.inj this).symm
  · exact Or.inl (Except.ok.inj h).symm

/-- The default-encoding application only touches its own parameter. -/
theorem ade_untouched (acc : SliceAcc) (p : String) (e : Option String)
    (k : String) (h : k ≠ p) :
    qget (applyDefaultEncoding acc p e).query k = qget acc.query k ∧
      qget (applyDefaultEncoding acc p e).updates k = qget acc.updates k := by
  cases e with
  | some s => exact ⟨rfl, qget_qset_ne _ _ _ _ h⟩
  | none => exact ⟨qget_qdel_ne _ _ _ h, rfl⟩

theorem ade_query_nodup (acc : SliceAcc) (p : String) (e : Option String)
    (h : (qkeys acc.query).Nodup) :
    (qkeys (applyDefaultEncoding acc p e).query).Nodup := by
  cases e with
  | some s => exact h
  | none => exact nodup_qdel _ _ h

/-- A successful slice step preserves key-uniqueness of the query copy. -/
theorem sliceStep_query_nodup {τ : Type} (changed : Prop) [Decidable changed]
    (ov : Option (τ → Except String Query)) (arg : τ) (p : String)
    (e : Option String) (acc acc' : SliceAcc)
    (h : sliceStep changed ov arg p e acc = Except.ok acc')
    (hnd : (qkeys acc.query).Nodup) : (qkeys acc'.query).Nodup := by
  rcases sliceStep_ok_cases changed ov arg p e acc acc' h with h1 | ⟨res, h2⟩ | ⟨_, _, h3⟩
  · rw [h1]; exact hnd
  · rw [h2]; exact hnd
  · rw [h3]; exact ade_query_nodup _ _ _ hnd

theorem sliceStep2_query_nodup {τ : Type} (changed : Prop) [Decidable changed]
    (ov : Option (τ → Except String Query)) (arg : τ) (p1 p2 : String)
    (e1 e2 : Option String) (acc acc' : SliceAcc)
    (h : sliceStep2 changed ov arg p1 p2 e1 e2 acc = Except.ok acc')
    (hnd : (qkeys acc.query).Nodup) : (qkeys acc'.query).Nodup := by
  rcases sliceStep2_ok_cases changed ov arg p1 p2 e1 e2 acc acc' h with
    h1 | ⟨res, h2⟩ | ⟨_, _, h3⟩
  · rw [h1]; exact hnd
  · rw [h2]; exact hnd
  · rw [h3]; exact ade_query_nodup _ _ _ (ade_query_nodup _ _ _ hnd)

/-- A successful slice step without an override leaves every key other
than its own parameter pointwise untouched in both objects. -/
theorem sliceStep_untouched {τ : Type} (changed : Prop) [Decidable changed]
    (ov : Option (τ → Except String Query)) (arg : τ) (p : String)
    (e : Option String) (acc acc' : SliceAcc) (k : String)
    (hov : ov = none)
    (h : sliceStep changed ov arg p e acc = Except.ok acc')
    (hk : changed → k ≠ p) :
    qget acc'.query k = qget acc.query k ∧
      qget acc'.updates k = qget acc.updates k := by
  by_cases hch : changed
  · rw [sliceStep_default changed ov arg p e acc hch hov] at h
    have hacc : applyDefaultEncoding acc p e = acc' := by injection h
    rw [← hacc]
    exact ade_untouched acc p e k (hk hch)
  · rw [sliceStep_unchanged changed ov arg p e acc hch] at h
    have hacc : acc = acc' := by injection h
    rw [← hacc]
    exact ⟨rfl, rfl⟩

theorem sliceStep2_untouched {τ : Type} (changed : Prop) [Decidable changed]
    (ov : Option (τ → Except String Query)) (arg : τ) (p1 p2 : String)
    (e1 e2 : Option String) (acc acc' : SliceAcc) (k : String)
    (hov : ov = none)
    (h : sliceStep2 changed ov arg p1 p2 e1 e2 acc = Except.ok acc')
    (hk : changed → k ≠ p1 ∧ k ≠ p2) :
    qget acc'.query k = qget acc.query k ∧
      qget acc'.updates k = qget acc.updates k := by
  by_cases hch : changed
  · rw [sliceStep2_default changed ov arg p1 p2 e1 e2 acc hch hov] at h
    have hacc : applyDefaultEncoding (applyDefaultEncoding acc p1 e1) p2 e2 = acc' := by
      injection h
    rw [← hacc]
    obtain ⟨h1', h2'⟩ := hk hch
    have u2 := ade_untouched (applyDefaultEncoding acc p1 e1) p2 e2 k h2'
    have u1 := ade_untouched acc p1 e1 k h1'
    exact ⟨u2.1.trans u1.1, u2.2.trans u1.2⟩
  · rw [sliceStep2_unchanged changed ov arg p1 p2 e1 e2 acc hch] at h
    have hacc : acc = acc' := by injection h
    rw [← hacc]
    exact ⟨rfl, rfl⟩

theorem except_bind_ok {α β : Type} (x : Except String α)
    (f : α → Except String β) (b : β) (h : (x >>= f) = Except.ok b) :
    ∃ a, x = Except.ok a ∧ f a = Except.ok b := by
  cases x with
  | error e =>
    exact absurd h (by simp [Bind.bind, Except.bind])
  | ok a =>
    exact ⟨a, rfl, by simpa [Bind.bind, Except.bind] using h⟩

theorem not_mem_gfKeys (o : Option Options) (oldS newS : State) (k : String)
    (h : k ∉ gfKeys o oldS newS) :
    newS.globalFilter ≠ oldS.globalFilter → k ≠ globalFilterParam o := by
  intro hch he
  rw [gfKeys, if_pos hch] at h
  exact h (by rw [he]; exact List.mem_singleton_self _)

theorem not_mem_sortKeys (o : Option Options) (oldS newS : State) (k : String)
    (h : k ∉ sortKeys o oldS newS) :
    newS.sorting ≠ oldS.sorting → k ≠ sortingParam o := by
  intro hch he
  rw [sortKeys, if_pos hch] at h
  exact h (by rw [he]; exact List.mem_singleton_self _)

theorem not_mem_pagKeys (o : Option Options) (oldS newS : State) (k : String)
    (h : k ∉ pagKeys o oldS newS) :
    (newS.pagination.pageIndex ≠ oldS.pagination.pageIndex ∨
      newS.pagination.pageSize ≠ oldS.pagination.pageSize) →
      k ≠ pageIndexParam o ∧ k ≠ pageSizeParam o := by
  intro hch
  rw [pagKeys, if_pos hch] at h
  constructor
  · intro he; exact h (by rw [he]; simp)
  · intro he; exact h (by rw [he]; simp)

theorem not_mem_cfKeys (o : Option Options) (oldS newS : State) (k : String)
    (h : k ∉ cfKeys o oldS newS) :
    newS.columnFilters ≠ oldS.columnFilters → k ≠ columnFiltersParam o := by
  intro hch he
  rw [cfKeys, if_pos hch] at h
  exact h (by rw [he]; exact List.mem_singleton_self _)

theorem not_mem_coKeys (o : Option Options) (oldS newS : State) (k : String)
    (h : k ∉ coKeys o oldS newS) :
    newS.columnOrder ≠ oldS.columnOrder → k ≠ columnOrderParam o := by
  intro hch he
  rw [coKeys, if_pos hch] at h
  exact h (by rw [he]; exact List.mem_singleton_self _)

theorem not_mem_rsKeys (o : Option Options) (oldS newS : State) (k : String)
    (h : k ∉ rsKeys o oldS newS) :
    newS.rowSelection ≠ oldS.rowSelection → k ≠ rowSelectionParam o := by
  intro hch he
  rw [rsKeys, if_pos hch] at h
  exact h (by rw [he]; exact List.mem_singleton_self _)

/-- Inversion of a successful `computeSlices` run into its six steps. -/
theorem computeSlices_inv (o : Option Options) (oldS newS : State)
    (q0 : Query) (acc : SliceAcc)
    (h : computeSlices o oldS newS q0 = Except.ok acc) :
    ∃ a1 a2 a3 a4 a5,
      stepGlobalFilter o oldS newS ⟨q0, [], []⟩ = Except.ok a1 ∧
      stepSorting o oldS newS a1 = Except.ok a2 ∧
      stepPagination o oldS newS a2 = Except.ok a3 ∧
      stepColumnFilters o oldS newS a3 = Except.ok a4 ∧
      stepColumnOrder o oldS newS a4 = Except.ok a5 ∧
      stepRowSelection o oldS newS a5 = Except.ok acc := by
  rw [computeSlices] at h
  obtain ⟨a1, h1, h⟩ := except_bind_ok _ _ _ h
  obtain ⟨a2, h2, h⟩ := except_bind_ok _ _ _ h
  obtain ⟨a3, h3, h⟩ := except_bind_ok _ _ _ h
  obtain ⟨a4, h4, h⟩ := except_bind_ok _ _ _ h
  obtain ⟨a5, h5, h⟩ := except_bind_ok _ _ _ h
  exact ⟨a1, a2, a3, a4, a5, h1, h2, h3, h4, h5, h⟩

/-- An overrideless update leaves every key outside `changedKeys`
pointwise untouched in the query copy, and never writes it into
`updates`. -/
theorem computeSlices_untouched (o : Option Options) (oldS newS : State)
    (q0 : Query) (acc : SliceAcc) (k : String)
    (hov : overridesNone o)
    (h : computeSlices o oldS newS q0 = Except.ok acc)
    (hk : k ∉ changedKeys o oldS newS) :
    qget acc.query k = qget q0 k ∧ qget acc.updates k = none := by
  obtain ⟨hov1, hov2, hov3, hov4, hov5, hov6⟩ := hov
  obtain ⟨a1, a2, a3, a4, a5, h1, h2, h3, h4, h5, h6⟩ :=
    computeSlices_inv o oldS newS q0 acc h
  rw [changedKeys] at hk
  simp only [List.mem_append, not_or] at hk
  obtain ⟨⟨⟨⟨⟨hk1, hk2⟩, hk3⟩, hk4⟩, hk5⟩, hk6⟩ := hk
  have u1 := sliceStep_untouched _ _ _ _ _ _ _ k hov1 h1
    (not_mem_gfKeys o oldS newS k hk1)
  have u2 := sliceStep_untouched _ _ _ _ _ _ _ k hov2 h2
    (not_mem_sortKeys o oldS newS k hk2)
  have u3 := sliceStep2_untouched _ _ _ _ _ _ _ _ _ k hov3 h3
    (not_mem_pagKeys o oldS newS k hk3)
  have u4 := sliceStep_untouched _ _ _ _ _ _ _ k hov4 h4
    (not_mem_cfKeys o oldS newS k hk4)
  have u5 := sliceStep_untouched _ _ _ _ _ _ _ k hov5 h5
    (not_mem_coKeys o oldS newS k hk5)
  have u6 := sliceStep_untouched _ _ _ _ _ _ _ k hov6 h6
    (not_mem_rsKeys o oldS newS k hk6)
  constructor
  · rw [u6.1, u5.1, u4.1, u3.1, u2.1, u1.1]
  · rw [u6.2, u5.2, u4.2, u3.2, u2.2, u1.2]
    rfl

/-- A successful run preserves key-uniqueness of the query copy. -/
theorem computeSlices_query_nodup (o : Option Options) (oldS newS : State)
    (q0 : Query) (acc : SliceAcc)
    (h : computeSlices o oldS newS q0 = Except.ok acc)
    (hnd : (qkeys q0).Nodup) : (qkeys acc.query).Nodup := by
  obtain ⟨a1, a2, a3, a4, a5, h1, h2, h3, h4, h5, h6⟩ :=
    computeSlices_inv o oldS newS q0 acc h
  exact sliceStep_query_nodup _ _ _ _ _ _ _ h6
    (sliceStep_query_nodup _ _ _ _ _ _ _ h5
      (sliceStep_query_nodup _ _ _ _ _ _ _ h4
        (sliceStep2_query_nodup _ _ _ _ _ _ _ _ _ h3
          (sliceStep_query_nodup _ _ _ _ _ _ _ h2
            (sliceStep_query_nodup _ _ _ _ _ _ _ h1 hnd)))))

/-- An update from a state to itself changes no slice: the query copy is
returned as-is, with no write and no delete. -/
theorem computeSlices_self (o : Option Options) (s : State) (q0 : Query) :
    computeSlices o s s q0 = Except.ok ⟨q0, [], []⟩ := by
  have hgf : ¬(s.globalFilter ≠ s.globalFilter) := fun h => h rfl
  have hsort : ¬(s.sorting ≠ s.sorting) := fun h => h rfl
  have hpag : ¬(s.pagination.pageIndex ≠ s.pagination.pageIndex ∨
      s.pagination.pageSize ≠ s.pagination.pageSize) := by simp
  have hcf : ¬(s.columnFilters ≠ s.columnFilters) := fun h => h rfl
  have hco : ¬(s.columnOrder ≠ s.columnOrder) := fun h => h rfl
  have hrs : ¬(s.rowSelection ≠ s.rowSelection) := fun h => h rfl
  rw [computeSlices, stepGlobalFilter, sliceStep_unchanged _ _ _ _ _ _ hgf]
  show (stepSorting o s s ⟨q0, [], []⟩ >>= _) = _
  rw [stepSorting, sliceStep_unchanged _ _ _ _ _ _ hsort]
  show (stepPagination o s s ⟨q0, [], []⟩ >>= _) = _
  rw [stepPagination, sliceStep2_unchanged _ _ _ _ _ _ _ _ hpag]
  show (stepColumnFilters o s s ⟨q0, [], []⟩ >>= _) = _
  rw [stepColumnFilters, sliceStep_unchanged _ _ _ _ _ _ hcf]
  show (stepColumnOrder o s s ⟨q0, [], []⟩ >>= _) = _
  rw [stepColumnOrder, sliceStep_unchanged _ _ _ _ _ _ hco]
  show stepRowSelection o s s ⟨q0, [], []⟩ = _
  rw [stepRowSelection, sliceStep_unchanged _ _ _ _ _ _ hrs]

theorem sliceStep_total {τ : Type} (changed : Prop) [Decidable changed]
    (ov : Option (τ → Except String Query)) (arg : τ) (p : String)
    (e : Option String) (acc : SliceAcc) (hov : ov = none) :
    ∃ acc', sliceStep changed ov arg p e acc = Except.ok acc' := by
  by_cases hch : changed
  · exact ⟨_, sliceStep_default _ _ _ _ _ _ hch hov⟩
  · exact ⟨_, sliceStep_unchanged _ _ _ _ _ _ hch⟩

theorem sliceStep2_total {τ : Type} (changed : Prop) [Decidable changed]
    (ov : Option (τ → Except String Query)) (arg : τ) (p1 p2 : String)
    (e1 e2 : Option String) (acc : SliceAcc) (hov : ov = none) :
    ∃ acc', sliceStep2 changed ov arg p1 p2 e1 e2 acc = Except.ok acc' := by
  by_cases hch : changed
  · exact ⟨_, sliceStep2_default _ _ _ _ _ _ _ _ hch hov⟩
  · exact ⟨_, sliceStep2_unchanged _ _ _ _ _ _ _ _ hch⟩

/-- Without override encoders no step can fail, so the whole run
succeeds. -/
theorem computeSlices_total (o : Option Options) (oldS newS : State)
    (q0 : Query) (hov : overridesNone o) :
    ∃ acc, computeSlices o oldS newS q0 = Except.ok acc := by
  obtain ⟨hov1, hov2, hov3, hov4, hov5, hov6⟩ := hov
  obtain ⟨a1, h1⟩ : ∃ a, stepGlobalFilter o oldS newS ⟨q0, [], []⟩ = Except.ok a := by
    rw [stepGlobalFilter]; exact sliceStep_total _ _ _ _ _ _ hov1
  obtain ⟨a2, h2⟩ : ∃ a, stepSorting o oldS newS a1 = Except.ok a := by
    rw [stepSorting]; exact sliceStep_total _ _ _ _ _ _ hov2
  obtain ⟨a3, h3⟩ : ∃ a, stepPagination o oldS newS a2 = Except.ok a := by
    rw [stepPagination]; exact sliceStep2_total _ _ _ _ _ _ _ _ hov3
  obtain ⟨a4, h4⟩ : ∃ a, stepColumnFilters o oldS newS a3 = Except.ok a := by
    rw [stepColumnFilters]; exact sliceStep_total _ _ _ _ _ _ hov4
  obtain ⟨a5, h5⟩ : ∃ a, stepColumnOrder o oldS newS a4 = Except.ok a := by
    rw [stepColumnOrder]; exact sliceStep_total _ _ _ _ _ _ hov5
  obtain ⟨a6, h6⟩ : ∃ a, stepRowSelection o oldS newS a5 = Except.ok a := by
    rw [stepRowSelection]; exact sliceStep_total _ _ _ _ _ _ hov6
  refine ⟨a6, ?_⟩
  rw [computeSlices, h1]
  show (stepSorting o oldS newS a1 >>= _) = _
  rw [h2]
  show (stepPagination o oldS newS a2 >>= _) = _
  rw [h3]
  show (stepColumnFilters o oldS newS a3 >>= _) = _
  rw [h4]
  show (stepColumnOrder o oldS newS a4 >>= _) = _
  rw [h5]
  show stepRowSelection o oldS newS a5 = _
  rw [h6]

/-- Claim C1: every invocation of the update callback issues exactly one
navigation: a successful run always returns a single navigation call, an
overrideless run always succeeds with a single navigation, and
`update(s, s)` performs zero parameter writes and zero deletes on the
query while still issuing exactly one navigation. -/
theorem claim1_single_navigation :
    (∀ (r : Router) (o : Option Options) (oldS newS : State)
        (navs : List String),
        useBatchedStateUpdate r o oldS newS = Except.ok navs →
          navs.length = 1) ∧
    (∀ (r : Router) (o : Option Options), overridesNone o →
      ∀ oldS newS : State,
        ∃ url, useBatchedStateUpdate r o oldS newS = Except.ok [url]) ∧
    (∀ (r : Router) (o : Option Options) (s : State),
      computeSlices o s s r.query = Except.ok ⟨r.query, [], []⟩ ∧
        useBatchedStateUpdate r o s s =
          Except.ok [navUrl r.pathname (qclean r.query)]) := by
  refine ⟨?_, ?_, ?_⟩
  · intro r o oldS newS navs h
    rw [useBatchedStateUpdate] at h
    cases hc : computeSlices o oldS newS r.query with
    | error e => rw [hc] at h; exact absurd h (by simp [Except.map])
    | ok acc =>
      rw [hc] at h
      have : Except.ok (ε := String)
          [navUrl r.pathname (cleanQueryOf acc)] = Except.ok navs := h
      rw [← Except.ok.inj this]
      rfl
  · intro r o hov oldS newS
    obtain ⟨acc, hacc⟩ := computeSlices_total o oldS newS r.query hov
    exact ⟨navUrl r.pathname (cleanQueryOf acc),
      by rw [useBatchedStateUpdate, hacc]; rfl⟩
  · intro r o s
    refine ⟨computeSlices_self o s r.query, ?_⟩
    rw [useBatchedStateUpdate, computeSlices_self]
    rfl

/-- Witness for C1 at concrete inputs: an update with no options from the
initial state to itself on an empty query navigates exactly once, to the
bare pathname. -/
theorem claim1_single_navigation_witness :
    (["/"] : List String).length = 1 ∧
    (∃ url, useBatchedStateUpdate ⟨[], "/"⟩ none initialState initialState =
      Except.ok [url]) :=
  ⟨claim1_single_navigation.1 ⟨[], "/"⟩ none initialState initialState
      ["/"] (claim1_single_navigation.2.2 ⟨[], "/"⟩ none initialState).2,
   claim1_single_navigation.2.1 ⟨[], "/"⟩ none
     ⟨rfl, rfl, rfl, rfl, rfl, rfl⟩ initialState initialState⟩

/-- Claim C2: slices whose value is unchanged, and unrelated parameters
already present in the router's query, appear unmodified in the navigated
query (overrideless update, well-formed router query).  Pointwise: every
key outside the changed slices' parameter names reads the same in the
cleaned result as in the cleaned current query.  Concretely, with only
`globalFilter=initial` in the URL and a change setting
`columnFilters=[{id:"name",value:"John"}]`, the result contains both
`globalFilter=initial` and `columnFilters=name.%22John%22`. -/
theorem claim2_unchanged_preserved :
    (∀ (r : Router) (o : Option Options) (oldS newS : State) (acc : SliceAcc)
        (k : String),
        overridesNone o → (qkeys r.query).Nodup →
        computeSlices o oldS newS r.query = Except.ok acc →
        k ∉ changedKeys o oldS newS →
        qget (cleanQueryOf acc) k = qget (qclean r.query) k) ∧
    (∃ acc, computeSlices none initialState
        { initialState with columnFilters := [⟨"name", FilterValue.str "John"⟩] }
        [("globalFilter", some (QVal.s "initial"))] = Except.ok acc ∧
      qget (cleanQueryOf acc) "globalFilter" = some (some (QVal.s "initial")) ∧
      qget (cleanQueryOf acc) "columnFilters" =
        some (some (QVal.s "name.%22John%22"))) := by
  constructor
  · intro r o oldS newS acc k hov hnd hcs hk
    have hu := computeSlices_untouched o oldS newS r.query acc k hov hcs hk
    have hnd2 : (qkeys acc.query).Nodup :=
      computeSlices_query_nodup o oldS newS r.query acc hcs hnd
    have hfq : qget (finalQueryOf acc) k = qget r.query k := by
      rw [finalQueryOf,
        qget_qassign_not_mem _ _ _ ((qget_eq_none_iff_not_mem _ _).1 hu.2),
        hu.1]
    rw [cleanQueryOf]
    rw [finalQueryOf] at hfq ⊢
    cases hv : qget r.query k with
    | none =>
      rw [qget_qclean_of_none _ _ (hfq.trans hv), qget_qclean_of_none _ _ hv]
    | some v =>
      cases v with
      | none =>
        rw [qget_qclean_none _ _ (nodup_qassign _ _ hnd2) (hfq.trans hv),
          qget_qclean_none _ _ hnd hv]
      | some w =>
        rw [qget_qclean_some _ _ _ (hfq.trans hv), qget_qclean_some _ _ _ hv]
  · exact ⟨_, rfl, rfl, rfl⟩

/-- Witness for C2 at concrete inputs: with only the column filters
changed, the untouched `globalFilter` parameter reads the same before and
after the update. -/
theorem claim2_unchanged_preserved_witness :
    qget (cleanQueryOf ⟨[("globalFilter", some (QVal.s "initial"))],
        [("columnFilters", some (QVal.s "name.%22John%22"))], []⟩)
      "globalFilter" =
      qget (qclean [("globalFilter", some (QVal.s "initial"))])
        "globalFilter" :=
  claim2_unchanged_preserved.1
    ⟨[("globalFilter", some (QVal.s "initial"))], "/"⟩ none initialState
    { initialState with columnFilters := [⟨"name", FilterValue.str "John"⟩] }
    ⟨[("globalFilter", some (QVal.s "initial"))],
      [("columnFilters", some (QVal.s "name.%22John%22"))], []⟩
    "globalFilter" ⟨rfl, rfl, rfl, rfl, rfl, rfl⟩ (by decide) rfl (by decide)

/-- A changed slice whose default encoding is `undefined` deletes its
parameter from the query copy and writes nothing for it. -/
theorem sliceStep_deleted {τ : Type} (changed : Prop) [Decidable changed]
    (ov : Option (τ → Except String Query)) (arg : τ) (p : String)
    (e : Option String) (acc acc' : SliceAcc)
    (hov : ov = none) (hch : changed) (he : e = none)
    (h : sliceStep changed ov arg p e acc = Except.ok acc') :
    qget acc'.query p = none ∧ qget acc'.updates p = qget acc.updates p := by
  rw [sliceStep_default _ _ _ _ _ _ hch hov, he] at h
  have hacc : applyDefaultEncoding acc p none = acc' := by injection h
  rw [← hacc]
  exact ⟨qget_qdel_self _ _, rfl⟩

/-- A changed slice whose default encoding is defined writes the encoded
value for its parameter and leaves the query copy untouched. -/
theorem sliceStep_written {τ : Type} (changed : Prop) [Decidable changed]
    (ov : Option (τ → Except String Query)) (arg : τ) (p : String)
    (e : Option String) (acc acc' : SliceAcc) (s : String)
    (hov : ov = none) (hch : changed) (he : e = some s)
    (h : sliceStep changed ov arg p e acc = Except.ok acc') :
    qget acc'.updates p = some (some (QVal.s s)) ∧
      qget acc'.query p = qget acc.query p := by
  rw [sliceStep_default _ _ _ _ _ _ hch hov, he] at h
  have hacc : applyDefaultEncoding acc p (some s) = acc' := by injection h
  rw [← hacc]
  exact ⟨qget_qset_self _ _ _, rfl⟩

/-- The changed pagination slice re-encodes both parameters as a unit:
each of the two parameters is independently written (when its encoding is
defined) or deleted (when it is `undefined`), regardless of which
sub-field actually changed. -/
theorem sliceStep2_encoded {τ : Type} (changed : Prop) [Decidable changed]
    (ov : Option (τ → Except String Query)) (arg : τ) (p1 p2 : String)
    (e1 e2 : Option String) (acc acc' : SliceAcc)
    (hov : ov = none) (hch : changed) (hp : p1 ≠ p2)
    (h : sliceStep2 changed ov arg p1 p2 e1 e2 acc = Except.ok acc') :
    (∀ s, e1 = some s → qget acc'.updates p1 = some (some (QVal.s s))) ∧
    (e1 = none → qget acc'.query p1 = none ∧ p1 ∈ acc'.dels ∧
      qget acc'.updates p1 = qget acc.updates p1) ∧
    (∀ s, e2 = some s → qget acc'.updates p2 = some (some (QVal.s s))) ∧
    (e2 = none → qget acc'.query p2 = none ∧ p2 ∈ acc'.dels ∧
      qget acc'.updates p2 = qget acc.updates p2) := by
  rw [sliceStep2_default _ _ _ _ _ _ _ _ hch hov] at h
  have hacc : applyDefaultEncoding (applyDefaultEncoding acc p1 e1) p2 e2 = acc' := by
    injection h
  rw [← hacc]
  refine ⟨?_, ?_, ?_, ?_⟩
  · intro s hs
    rw [hs]
    cases e2 with
    | some s2 =>
      show qget (qset (qset acc.updates p1 (some (QVal.s s))) p2 (some (QVal.s s2))) p1 = _
      rw [qget_qset_ne _ _ _ _ hp, qget_qset_self]
    | none =>
      show qget (qset acc.updates p1 (some (QVal.s s))) p1 = _
      rw [qget_qset_self]
  · intro h1
    rw [h1]
    cases e2 with
    | some s2 =>
      refine ⟨qget_qdel_self _ _, by show p1 ∈ acc.dels ++ [p1]; simp, ?_⟩
      show qget (qset acc.updates p2 (some (QVal.s s2))) p1 = _
      exact qget_qset_ne _ _ _ _ hp
    | none =>
      refine ⟨?_, by show p1 ∈ (acc.dels ++ [p1]) ++ [p2]; simp, rfl⟩
      show qget (qdel (qdel acc.query p1) p2) p1 = none
      rw [qget_qdel_ne _ _ _ hp, qget_qdel_self]
  · intro s hs
    rw [hs]
    cases e1 with
    | some s1 =>
      show qget (qset (qset acc.updates p1 (some (QVal.s s1))) p2 (some (QVal.s s))) p2 = _
      rw [qget_qset_self]
    | none =>
      show qget (qset acc.updates p2 (some (QVal.s s))) p2 = _
      rw [qget_qset_self]
  · intro h2
    rw [h2]
    cases e1 with
    | some s1 =>
      refine ⟨qget_qdel_self _ _, by show p2 ∈ acc.dels ++ [p2]; simp, ?_⟩
      show qget (qset acc.updates p1 (some (QVal.s s1))) p2 = _
      exact qget_qset_ne _ _ _ _ (Ne.symm hp)
    | none =>
      exact ⟨qget_qdel_self _ _, by show p2 ∈ (acc.dels ++ [p1]) ++ [p2]; simp, rfl⟩

/-- A key absent from both the query copy and `updates` is absent from
the cleaned merged query. -/
theorem cleanQuery_absent (acc : SliceAcc) (k : String)
    (hq : qget acc.query k = none) (hu : qget acc.updates k = none) :
    qget (cleanQueryOf acc) k = none := by
  rw [cleanQueryOf, finalQueryOf]
  apply qget_qclean_of_none
  rw [qget_qassign_not_mem _ _ _ ((qget_eq_none_iff_not_mem _ _).1 hu)]
  exact hq

theorem update_deletes_globalFilter (o : Option Options) (oldS newS : State)
    (q0 : Query) (acc : SliceAcc)
    (hov : overridesNone o)
    (hcs : computeSlices o oldS newS q0 = Except.ok acc)
    (hch : newS.globalFilter ≠ oldS.globalFilter)
    (henc : encodeGlobalFilter newS.globalFilter
      ((defaultValuesOf o).bind (fun d => d.globalFilter)) = none)
    (hother : globalFilterParam o ∉ sortKeys o oldS newS ++ pagKeys o oldS newS ++
      cfKeys o oldS newS ++ coKeys o oldS newS ++ rsKeys o oldS newS) :
    qget (cleanQueryOf acc) (globalFilterParam o) = none := by
  obtain ⟨hov1, hov2, hov3, hov4, hov5, hov6⟩ := hov
  obtain ⟨a1, a2, a3, a4, a5, h1, h2, h3, h4, h5, h6⟩ :=
    computeSlices_inv o oldS newS q0 acc hcs
  simp only [List.mem_append, not_or] at hother
  obtain ⟨⟨⟨⟨ho2, ho3⟩, ho4⟩, ho5⟩, ho6⟩ := hother
  rw [stepGlobalFilter] at h1
  rw [stepSorting] at h2
  rw [stepPagination] at h3
  rw [stepColumnFilters] at h4
  rw [stepColumnOrder] at h5
  rw [stepRowSelection] at h6
  have d1 := sliceStep_deleted _ _ _ _ _ _ _ hov1 hch henc h1
  have u2 := sliceStep_untouched _ _ _ _ _ _ _ _ hov2 h2
    (not_mem_sortKeys o oldS newS _ ho2)
  have u3 := sliceStep2_untouched _ _ _ _ _ _ _ _ _ _ hov3 h3
    (not_mem_pagKeys o oldS newS _ ho3)
  have u4 := sliceStep_untouched _ _ _ _ _ _ _ _ hov4 h4
    (not_mem_cfKeys o oldS newS _ ho4)
  have u5 := sliceStep_untouched _ _ _ _ _ _ _ _ hov5 h5
    (not_mem_coKeys o oldS newS _ ho5)
  have u6 := sliceStep_untouched _ _ _ _ _ _ _ _ hov6 h6
    (not_mem_rsKeys o oldS newS _ ho6)
  apply cleanQuery_absent
  · rw [u6.1, u5.1, u4.1, u3.1, u2.1]
    exact d1.1
  · rw [u6.2, u5.2, u4.2, u3.2, u2.2, d1.2]
    rfl

theorem update_deletes_sorting (o : Option Options) (oldS newS : State)
    (q0 : Query) (acc : SliceAcc)
    (hov : overridesNone o)
    (hcs : computeSlices o oldS newS q0 = Except.ok acc)
    (hch : newS.sorting ≠ oldS.sorting)
    (henc : encodeSorting newS.sorting
      ((defaultValuesOf o).bind (fun d => d.sorting)) = none)
    (hother : sortingParam o ∉ gfKeys o oldS newS ++ pagKeys o oldS newS ++
      cfKeys o oldS newS ++ coKeys o oldS newS ++ rsKeys o oldS newS) :
    qget (cleanQueryOf acc) (sortingParam o) = none := by
  obtain ⟨hov1, hov2, hov3, hov4, hov5, hov6⟩ := hov
  obtain ⟨a1, a2, a3, a4, a5, h1, h2, h3, h4, h5, h6⟩ :=
    computeSlices_inv o oldS newS q0 acc hcs
  simp only [List.mem_append, not_or] at hother
  obtain ⟨⟨⟨⟨ho1, ho3⟩, ho4⟩, ho5⟩, ho6⟩ := hother
  rw [stepGlobalFilter] at h1
  rw [stepSorting] at h2
  rw [stepPagination] at h3
  rw [stepColumnFilters] at h4
  rw [stepColumnOrder] at h5
  rw [stepRowSelection] at h6
  have u1 := sliceStep_untouched _ _ _ _ _ _ _ _ hov1 h1
    (not_mem_gfKeys o oldS newS _ ho1)
  have d2 := sliceStep_deleted _ _ _ _ _ _ _ hov2 hch henc h2
  have u3 := sliceStep2_untouched _ _ _ _ _ _ _ _ _ _ hov3 h3
    (not_mem_pagKeys o oldS newS _ ho3)
  have u4 := sliceStep_untouched _ _ _ _ _ _ _ _ hov4 h4
    (not_mem_cfKeys o oldS newS _ ho4)
  have u5 := sliceStep_untouched _ _ _ _ _ _ _ _ hov5 h5
    (not_mem_coKeys o oldS newS _ ho5)
  have u6 := sliceStep_untouched _ _ _ _ _ _ _ _ hov6 h6
    (not_mem_rsKeys o oldS newS _ ho6)
  apply cleanQuery_absent
  · rw [u6.1, u5.1, u4.1, u3.1]
    exact d2.1
  · rw [u6.2, u5.2, u4.2, u3.2, d2.2, u1.2]
    rfl

theorem update_deletes_pagination (o : Option Options) (oldS newS : State)
    (q0 : Query) (acc : SliceAcc)
    (hov : overridesNone o)
    (hcs : computeSlices o oldS newS q0 = Except.ok acc)
    (hch : newS.pagination.pageIndex ≠ oldS.pagination.pageIndex ∨
      newS.pagination.pageSize ≠ oldS.pagination.pageSize)
    (hp : pageIndexParam o ≠ pageSizeParam o)
    (hother1 : pageIndexParam o ∉ gfKeys o oldS newS ++ sortKeys o oldS newS ++
      cfKeys o oldS newS ++ coKeys o oldS newS ++ rsKeys o oldS newS)
    (hother2 : pageSizeParam o ∉ gfKeys o oldS newS ++ sortKeys o oldS newS ++
      cfKeys o oldS newS ++ coKeys o oldS newS ++ rsKeys o oldS newS) :
    ((encodePagination newS.pagination
        ((defaultValuesOf o).bind (fun d => d.pagination))).pageIndex = none →
      qget (cleanQueryOf acc) (pageIndexParam o) = none) ∧
    ((encodePagination newS.pagination
        ((defaultValuesOf o).bind (fun d => d.pagination))).pageSize = none →
      qget (cleanQueryOf acc) (pageSizeParam o) = none) := by
  obtain ⟨hov1, hov2, hov3, hov4, hov5, hov6⟩ := hov
  obtain ⟨a1, a2, a3, a4, a5, h1, h2, h3, h4, h5, h6⟩ :=
    computeSlices_inv o oldS newS q0 acc hcs
  simp only [List.mem_append, not_or] at hother1 hother2
  obtain ⟨⟨⟨⟨ho11, ho12⟩, ho14⟩, ho15⟩, ho16⟩ := hother1
  obtain ⟨⟨⟨⟨ho21, ho22⟩, ho24⟩, ho25⟩, ho26⟩ := hother2
  rw [stepGlobalFilter] at h1
  rw [stepSorting] at h2
  rw [stepPagination] at h3
  rw [stepColumnFilters] at h4
  rw [stepColumnOrder] at h5
  rw [stepRowSelection] at h6
  have e3 := sliceStep2_encoded _ _ _ _ _ _ _ _ _ hov3 hch hp h3
  have u11 := sliceStep_untouched _ _ _ _ _ _ _ _ hov1 h1
    (not_mem_gfKeys o oldS newS _ ho11)
  have u12 := sliceStep_untouched _ _ _ _ _ _ _ _ hov2 h2
    (not_mem_sortKeys o oldS newS _ ho12)
  have u14 := sliceStep_untouched _ _ _ _ _ _ _ _ hov4 h4
    (not_mem_cfKeys o oldS newS _ ho14)
  have u15 := sliceStep_untouched _ _ _ _ _ _ _ _ hov5 h5
    (not_mem_coKeys o oldS newS _ ho15)
  have u16 := sliceStep_untouched _ _ _ _ _ _ _ _ hov6 h6
    (not_mem_rsKeys o oldS newS _ ho16)
  have u21 := sliceStep_untouched _ _ _ _ _ _ _ _ hov1 h1
    (not_mem_gfKeys o oldS newS _ ho21)
  have u22 := sliceStep_untouched _ _ _ _ _ _ _ _ hov2 h2
    (not_mem_sortKeys o oldS newS _ ho22)
  have u24 := sliceStep_untouched _ _ _ _ _ _ _ _ hov4 h4
    (not_mem_cfKeys o oldS newS _ ho24)
  have u25 := sliceStep_untouched _ _ _ _ _ _ _ _ hov5 h5
    (not_mem_coKeys o oldS newS _ ho25)
  have u26 := sliceStep_untouched _ _ _ _ _ _ _ _ hov6 h6
    (not_mem_rsKeys o oldS newS _ ho26)
  constructor
  · intro henc
    obtain ⟨hq3, _, hu3⟩ := e3.2.1 henc
    apply cleanQuery_absent
    · rw [u16.1, u15.1, u14.1]
      exact hq3
    · rw [u16.2, u15.2, u14.2, hu3, u12.2, u11.2]
      rfl
  · intro henc
    obtain ⟨hq3, _, hu3⟩ := e3.2.2.2 henc
    apply cleanQuery_absent
    · rw [u26.1, u25.1, u24.1]
      exact hq3
    · rw [u26.2, u25.2, u24.2, hu3, u22.2, u21.2]
      rfl

theorem update_deletes_columnFilters (o : Option Options) (oldS newS : State)
    (q0 : Query) (acc : SliceAcc)
    (hov : overridesNone o)
    (hcs : computeSlices o oldS newS q0 = Except.ok acc)
    (hch : newS.columnFilters ≠ oldS.columnFilters)
    (henc : encodeColumnFilters newS.columnFilters
      ((defaultValuesOf o).bind (fun d => d.columnFilters)) = none)
    (hother : columnFiltersParam o ∉ gfKeys o oldS newS ++ sortKeys o oldS newS ++
      pagKeys o oldS newS ++ coKeys o oldS newS ++ rsKeys o oldS newS) :
    qget (cleanQueryOf acc) (columnFiltersParam o) = none := by
  obtain ⟨hov1, hov2, hov3, hov4, hov5, hov6⟩ := hov
  obtain ⟨a1, a2, a3, a4, a5, h1, h2, h3, h4, h5, h6⟩ :=
    computeSlices_inv o oldS newS q0 acc hcs
  simp only [List.mem_append, not_or] at hother
  obtain ⟨⟨⟨⟨ho1, ho2⟩, ho3⟩, ho5⟩, ho6⟩ := hother
  rw [stepGlobalFilter] at h1
  rw [stepSorting] at h2
  rw [stepPagination] at h3
  rw [stepColumnFilters] at h4
  rw [stepColumnOrder] at h5
  rw [stepRowSelection] at h6
  have u1 := sliceStep_untouched _ _ _ _ _ _ _ _ hov1 h1
    (not_mem_gfKeys o oldS newS _ ho1)
  have u2 := sliceStep_untouched _ _ _ _ _ _ _ _ hov2 h2
    (not_mem_sortKeys o oldS newS _ ho2)
  have u3 := sliceStep2_untouched _ _ _ _ _ _ _ _ _ _ hov3 h3
    (not_mem_pagKeys o oldS newS _ ho3)
  have d4 := sliceStep_deleted _ _ _ _ _ _ _ hov4 hch henc h4
  have u5 := sliceStep_untouched _ _ _ _ _ _ _ _ hov5 h5
    (not_mem_coKeys o oldS newS _ ho5)
  have u6 := sliceStep_untouched _ _ _ _ _ _ _ _ hov6 h6
    (not_mem_rsKeys o oldS newS _ ho6)
  apply cleanQuery_absent
  · rw [u6.1, u5.1]
    exact d4.1
  · rw [u6.2, u5.2, d4.2, u3.2, u2.2, u1.2]
    rfl

theorem update_deletes_columnOrder (o : Option Options) (oldS newS : State)
    (q0 : Query) (acc : SliceAcc)
    (hov : overridesNone o)
    (hcs : computeSlices o oldS newS q0 = Except.ok acc)
    (hch : newS.columnOrder ≠ oldS.columnOrder)
    (henc : encodeColumnOrder newS.columnOrder
      ((defaultValuesOf o).bind (fun d => d.columnOrder)) = none)
    (hother : columnOrderParam o ∉ gfKeys o oldS newS ++ sortKeys o oldS newS ++
      pagKeys o oldS newS ++ cfKeys o oldS newS ++ rsKeys o oldS newS) :
    qget (cleanQueryOf acc) (columnOrderParam o) = none := by
  obtain ⟨hov1, hov2, hov3, hov4, hov5, hov6⟩ := hov
  obtain ⟨a1, a2, a3, a4, a5, h1, h2, h3, h4, h5, h6⟩ :=
    computeSlices_inv o oldS newS q0 acc hcs
  simp only [List.mem_append, not_or] at hother
  obtain ⟨⟨⟨⟨ho1, ho2⟩, ho3⟩, ho4⟩, ho6⟩ := hother
  rw [stepGlobalFilter] at h1
  rw [stepSorting] at h2
  rw [stepPagination] at h3
  rw [stepColumnFilters] at h4
  rw [stepColumnOrder] at h5
  rw [stepRowSelection] at h6
  have u1 := sliceStep_untouched _ _ _ _ _ _ _ _ hov1 h1
    (not_mem_gfKeys o oldS newS _ ho1)
  have u2 := sliceStep_untouched _ _ _ _ _ _ _ _ hov2 h2
    (not_mem_sortKeys o oldS newS _ ho2)
  have u3 := sliceStep2_untouched _ _ _ _ _ _ _ _ _ _ hov3 h3
    (not_mem_pagKeys o oldS newS _ ho3)
  have u4 := sliceStep_untouched _ _ _ _ _ _ _ _ hov4 h4
    (not_mem_cfKeys o oldS newS _ ho4)
  have d5 := sliceStep_deleted _ _ _ _ _ _ _ hov5 hch henc h5
  have u6 := sliceStep_untouched _ _ _ _ _ _ _ _ hov6 h6
    (not_mem_rsKeys o oldS newS _ ho6)
  apply cleanQuery_absent
  · rw [u6.1]
    exact d5.1
  · rw [u6.2, d5.2, u4.2, u3.2, u2.2, u1.2]
    rfl

theorem update_deletes_rowSelection (o : Option Options) (oldS newS : State)
    (q0 : Query) (acc : SliceAcc)
    (hov : overridesNone o)
    (hcs : computeSlices o oldS newS q0 = Except.ok acc)
    (hch : newS.rowSelection ≠ oldS.rowSelection)
    (henc : encodeRowSelection newS.rowSelection
      ((defaultValuesOf o).bind (fun d => d.rowSelection)) = none)
    (hother : rowSelectionParam o ∉ gfKeys o oldS newS ++ sortKeys o oldS newS ++
      pagKeys o oldS newS ++ cfKeys o oldS newS ++ coKeys o oldS newS) :
    qget (cleanQueryOf acc) (rowSelectionParam o) = none := by
  obtain ⟨hov1, hov2, hov3, hov4, hov5, hov6⟩ := hov
  obtain ⟨a1, a2, a3, a4, a5, h1, h2, h3, h4, h5, h6⟩ :=
    computeSlices_inv o oldS newS q0 acc hcs
  simp only [List.mem_append, not_or] at hother
  obtain ⟨⟨⟨⟨ho1, ho2⟩, ho3⟩, ho4⟩, ho5⟩ := hother
  rw [stepGlobalFilter] at h1
  rw [stepSorting] at h2
  rw [stepPagination] at h3
  rw [stepColumnFilters] at h4
  rw [stepColumnOrder] at h5
  rw [stepRowSelection] at h6
  have u1 := sliceStep_untouched _ _ _ _ _ _ _ _ hov1 h1
    (not_mem_gfKeys o oldS newS _ ho1)
  have u2 := sliceStep_untouched _ _ _ _ _ _ _ _ hov2 h2
    (not_mem_sortKeys o oldS newS _ ho2)
  have u3 := sliceStep2_untouched _ _ _ _ _ _ _ _ _ _ hov3 h3
    (not_mem_pagKeys o oldS newS _ ho3)
  have u4 := sliceStep_untouched _ _ _ _ _ _ _ _ hov4 h4
    (not_mem_cfKeys o oldS newS _ ho4)
  have u5 := sliceStep_untouched _ _ _ _ _ _ _ _ hov5 h5
    (not_mem_coKeys o oldS newS _ ho5)
  have d6 := sliceStep_deleted _ _ _ _ _ _ _ hov6 hch henc h6
  apply cleanQuery_absent
  · exact d6.1
  · rw [d6.2, u5.2, u4.2, u3.2, u2.2, u1.2]
    rfl

/-- Claim C3: for every changed slice whose default codec returns
`undefined` (value reverted to default or became empty) the slice's query
parameter(s) are deleted from the navigated query (overrideless update;
the slice's parameter name not being rewritten by another changed slice).
Concretely, clearing `globalFilter` and `columnFilters` removes both
parameters and navigates to the bare pathname. -/
theorem claim3_cleared_params_deleted :
    (∀ (o : Option Options) (oldS newS : State) (q0 : Query) (acc : SliceAcc),
      overridesNone o → computeSlices o oldS newS q0 = Except.ok acc →
      ((newS.globalFilter ≠ oldS.globalFilter →
        encodeGlobalFilter newS.globalFilter
          ((defaultValuesOf o).bind (fun d => d.globalFilter)) = none →
        globalFilterParam o ∉ sortKeys o oldS newS ++ pagKeys o oldS newS ++
          cfKeys o oldS newS ++ coKeys o oldS newS ++ rsKeys o oldS newS →
        qget (cleanQueryOf acc) (globalFilterParam o) = none) ∧
      (newS.sorting ≠ oldS.sorting →
        encodeSorting newS.sorting
          ((defaultValuesOf o).bind (fun d => d.sorting)) = none →
        sortingParam o ∉ gfKeys o oldS newS ++ pagKeys o oldS newS ++
          cfKeys o oldS newS ++ coKeys o oldS newS ++ rsKeys o oldS newS →
        qget (cleanQueryOf acc) (sortingParam o) = none) ∧
      ((newS.pagination.pageIndex ≠ oldS.pagination.pageIndex ∨
          newS.pagination.pageSize ≠ oldS.pagination.pageSize) →
        pageIndexParam o ≠ pageSizeParam o →
        pageIndexParam o ∉ gfKeys o oldS newS ++ sortKeys o oldS newS ++
          cfKeys o oldS newS ++ coKeys o oldS newS ++ rsKeys o oldS newS →
        pageSizeParam o ∉ gfKeys o oldS newS ++ sortKeys o oldS newS ++
          cfKeys o oldS newS ++ coKeys o oldS newS ++ rsKeys o oldS newS →
        ((encodePagination newS.pagination
            ((defaultValuesOf o).bind (fun d => d.pagination))).pageIndex = none →
          qget (cleanQueryOf acc) (pageIndexParam o) = none) ∧
        ((encodePagination newS.pagination
            ((defaultValuesOf o).bind (fun d => d.pagination))).pageSize = none →
          qget (cleanQueryOf acc) (pageSizeParam o) = none)) ∧
      (newS.columnFilters ≠ oldS.columnFilters →
        encodeColumnFilters newS.columnFilters
          ((defaultValuesOf o).bind (fun d => d.columnFilters)) = none →
        columnFiltersParam o ∉ gfKeys o oldS newS ++ sortKeys o oldS newS ++
          pagKeys o oldS newS ++ coKeys o oldS newS ++ rsKeys o oldS newS →
        qget (cleanQueryOf acc) (columnFiltersParam o) = none) ∧
      (newS.columnOrder ≠ oldS.columnOrder →
        encodeColumnOrder newS.columnOrder
          ((defaultValuesOf o).bind (fun d => d.columnOrder)) = none →
        columnOrderParam o ∉ gfKeys o oldS newS ++ sortKeys o oldS newS ++
          pagKeys o oldS newS ++ cfKeys o oldS newS ++ rsKeys o oldS newS →
        qget (cleanQueryOf acc) (columnOrderParam o) = none) ∧
      (newS.rowSelection ≠ oldS.rowSelection →
        encodeRowSelection newS.rowSelection
          ((defaultValuesOf o).bind (fun d => d.rowSelection)) = none →
        rowSelectionParam o ∉ gfKeys o oldS newS ++ sortKeys o oldS newS ++
          pagKeys o oldS newS ++ cfKeys o oldS newS ++ coKeys o oldS newS →
        qget (cleanQueryOf acc) (rowSelectionParam o) = none))) ∧
    (∃ acc, computeSlices none
        stateWithTestFilters
        initialState
        [("globalFilter", some (QVal.s "test")),
          ("columnFilters", some (QVal.s "name.%22John%22"))] = Except.ok acc ∧
      qget (cleanQueryOf acc) "globalFilter" = none ∧
      qget (cleanQueryOf acc) "columnFilters" = none ∧
      useBatchedStateUpdate
        ⟨[("globalFilter", some (QVal.s "test")),
          ("columnFilters", some (QVal.s "name.%22John%22"))], "/"⟩ none
        stateWithTestFilters
        initialState = Except.ok ["/"]) := by
  constructor
  · intro o oldS newS q0 acc hov hcs
    refine ⟨?_, ?_, ?_, ?_, ?_, ?_⟩
    · intro hch henc hother
      exact update_deletes_globalFilter o oldS newS q0 acc hov hcs hch henc hother
    · intro hch henc hother
      exact update_deletes_sorting o oldS newS q0 acc hov hcs hch henc hother
    · intro hch hp hother1 hother2
      exact update_deletes_pagination o oldS newS q0 acc hov hcs hch hp
        hother1 hother2
    · intro hch henc hother
      exact update_deletes_columnFilters o oldS newS q0 acc hov hcs hch henc hother
    · intro hch henc hother
      exact update_deletes_columnOrder o oldS newS q0 acc hov hcs hch henc hother
    · intro hch henc hother
      exact update_deletes_rowSelection o oldS newS q0 acc hov hcs hch henc hother
  · exact ⟨_, rfl, rfl, rfl, rfl⟩

/-- Witness for C3 at concrete inputs: clearing the global filter deletes
its parameter from the cleaned result. -/
theorem claim3_cleared_params_deleted_witness :
    qget (cleanQueryOf ⟨[], [], ["globalFilter", "columnFilters"]⟩)
      "globalFilter" = none :=
  ((claim3_cleared_params_deleted.1 none
    stateWithTestFilters
    initialState
    [("globalFilter", some (QVal.s "test")),
      ("columnFilters", some (QVal.s "name.%22John%22"))]
    ⟨[], [], ["globalFilter", "columnFilters"]⟩
    ⟨rfl, rfl, rfl, rfl, rfl, rfl⟩ rfl).1 (by decide) rfl (by decide))

/-- Claim C6: the navigated URL is exactly the pathname plus a
`?`-prefixed serialized query string, with the `?` omitted when the
string is empty, over the merged query with every `undefined`-valued key
stripped: every successful update navigates to `navUrl` of the cleaned
merged query, the cleaned query never holds an `undefined` value, a key
whose merged value is `undefined` is absent from the cleaned query, and
`navUrl` has the stated shape for empty and nonempty query strings. -/
theorem claim6_url_shape :
    (∀ (r : Router) (o : Option Options) (oldS newS : State) (acc : SliceAcc),
        computeSlices o oldS newS r.query = Except.ok acc →
        useBatchedStateUpdate r o oldS newS =
          Except.ok [navUrl r.pathname (qclean (qassign acc.query acc.updates))]) ∧
    (∀ (q : Query) (k : String) (v : Option QVal),
        qget (qclean q) k = some v → v ≠ none) ∧
    (∀ (q : Query) (k : String), (qkeys q).Nodup → qget q k = some none →
        qget (qclean q) k = none) ∧
    (∀ (p : String) (q : Query), serializeQuery q = "" → navUrl p q = p) ∧
    (∀ (p : String) (q : Query), serializeQuery q ≠ "" →
        navUrl p q = p ++ "?" ++ serializeQuery q) := by
  refine ⟨?_, qget_qclean_defined, qget_qclean_none, ?_, ?_⟩
  · intro r o oldS newS acc hcs
    rw [useBatchedStateUpdate, hcs]
    rfl
  · intro p q h
    rw [navUrl]
    simp [h]
  · intro p q h
    rw [navUrl]
    simp [h]

/-- Witness for C6 at concrete inputs: the empty query navigates to the
bare pathname, a nonempty one to pathname, `?` and the serialized
string. -/
theorem claim6_url_shape_witness :
    useBatchedStateUpdate ⟨[], "/"⟩ none initialState initialState =
      Except.ok [navUrl "/" (qclean (qassign [] []))] ∧
    navUrl "/" [] = "/" ∧
    navUrl "/" [("globalFilter", some (QVal.s "a"))] =
      "/" ++ "?" ++ serializeQuery [("globalFilter", some (QVal.s "a"))] :=
  ⟨claim6_url_shape.1 ⟨[], "/"⟩ none initialState initialState
      ⟨[], [], []⟩ (computeSlices_self none initialState []),
   claim6_url_shape.2.2.2.1 "/" [] rfl,
   claim6_url_shape.2.2.2.2 "/" [("globalFilter", some (QVal.s "a"))]
     (by decide)⟩

/-- A slice step whose override encoder throws propagates the exception. -/
theorem sliceStep_error {τ : Type} (changed : Prop) [Decidable changed]
    (ov : Option (τ → Except String Query)) (arg : τ) (p : String)
    (e : Option String) (acc : SliceAcc) (f : τ → Except String Query)
    (msg : String) (hch : changed) (hov : ov = some f)
    (hf : f arg = Except.error msg) :
    sliceStep changed ov arg p e acc = Except.error msg := by
  rw [sliceStep_override _ _ _ _ _ _ _ hch hov, hf]
  rfl

theorem sliceStep2_error {τ : Type} (changed : Prop) [Decidable changed]
    (ov : Option (τ → Except String Query)) (arg : τ) (p1 p2 : String)
    (e1 e2 : Option String) (acc : SliceAcc) (f : τ → Except String Query)
    (msg : String) (hch : changed) (hov : ov = some f)
    (hf : f arg = Except.error msg) :
    sliceStep2 changed ov arg p1 p2 e1 e2 acc = Except.error msg := by
  rw [sliceStep2_override _ _ _ _ _ _ _ _ _ hch hov, hf]
  rfl

/-- Claim C7: the update raises no errors internally (overrideless runs
always succeed); a throwing override encoder propagates uncaught — an
erroring run propagates the same exception through the update and never
reaches the navigation, each slice step propagates its override's
exception, and a throwing global filter override makes the whole update
fail with that exception. -/
theorem claim7_override_exceptions_propagate :
    (∀ (r : Router) (o : Option Options) (oldS newS : State) (e : String),
        computeSlices o oldS newS r.query = Except.error e →
        useBatchedStateUpdate r o oldS newS = Except.error e) ∧
    (∀ (r : Router) (o : Option Options), overridesNone o →
      ∀ oldS newS : State,
        ∃ navs, useBatchedStateUpdate r o oldS newS = Except.ok navs) ∧
    (∀ (o : Option Options) (oldS newS : State) (acc : SliceAcc)
        (f : Option String → Except String Query) (e : String),
        (encodersOf o).bind (fun t => t.globalFilter) = some f →
        newS.globalFilter ≠ oldS.globalFilter →
        f newS.globalFilter = Except.error e →
        stepGlobalFilter o oldS newS acc = Except.error e) ∧
    (∀ (o : Option Options) (oldS newS : State) (acc : SliceAcc)
        (f : List ColumnSort → Except String Query) (e : String),
        (encodersOf o).bind (fun t => t.sorting) = some f →
        newS.sorting ≠ oldS.sorting →
        f newS.sorting = Except.error e →
        stepSorting o oldS newS acc = Except.error e) ∧
    (∀ (o : Option Options) (oldS newS : State) (acc : SliceAcc)
        (f : Pagination → Except String Query) (e : String),
        (encodersOf o).bind (fun t => t.pagination) = some f →
        (newS.pagination.pageIndex ≠ oldS.pagination.pageIndex ∨
          newS.pagination.pageSize ≠ oldS.pagination.pageSize) →
        f newS.pagination = Except.error e →
        stepPagination o oldS newS acc = Except.error e) ∧
    (∀ (o : Option Options) (oldS newS : State) (acc : SliceAcc)
        (f : List ColumnFilter → Except String Query) (e : String),
        (encodersOf o).bind (fun t => t.columnFilters) = some f →
        newS.columnFilters ≠ oldS.columnFilters →
        f newS.columnFilters = Except.error e →
        stepColumnFilters o oldS newS acc = Except.error e) ∧
    (∀ (o : Option Options) (oldS newS : State) (acc : SliceAcc)
        (f : List String → Except String Query) (e : String),
        (encodersOf o).bind (fun t => t.columnOrder) = some f →
        newS.columnOrder ≠ oldS.columnOrder →
        f newS.columnOrder = Except.error e →
        stepColumnOrder o oldS newS acc = Except.error e) ∧
    (∀ (o : Option Options) (oldS newS : State) (acc : SliceAcc)
        (f : List (String × Bool) → Except String Query) (e : String),
        (encodersOf o).bind (fun t => t.rowSelection) = some f →
        newS.rowSelection ≠ oldS.rowSelection →
        f newS.rowSelection = Except.error e →
        stepRowSelection o oldS newS acc = Except.error e) ∧
    (∀ (r : Router) (o : Option Options) (oldS newS : State)
        (f : Option String → Except String Query) (e : String),
        (encodersOf o).bind (fun t => t.globalFilter) = some f →
        newS.globalFilter ≠ oldS.globalFilter →
        f newS.globalFilter = Except.error e →
        useBatchedStateUpdate r o oldS newS = Except.error e) := by
  have hprop : ∀ (r : Router) (o : Option Options) (oldS newS : State) (e : String),
      computeSlices o oldS newS r.query = Except.error e →
      useBatchedStateUpdate r o oldS newS = Except.error e := by
    intro r o oldS newS e h
    rw [useBatchedStateUpdate, h]
    rfl
  have hgf : ∀ (o : Option Options) (oldS newS : State) (acc : SliceAcc)
      (f : Option String → Except String Query) (e : String),
      (encodersOf o).bind (fun t => t.globalFilter) = some f →
      newS.globalFilter ≠ oldS.globalFilter →
      f newS.globalFilter = Except.error e →
      stepGlobalFilter o oldS newS acc = Except.error e := by
    intro o oldS newS acc f e hov hch hf
    rw [stepGlobalFilter]
    exact sliceStep_error _ _ _ _ _ _ _ _ hch hov hf
  refine ⟨hprop, ?_, hgf, ?_, ?_, ?_, ?_, ?_, ?_⟩
  · intro r o hov oldS newS
    obtain ⟨acc, hacc⟩ := computeSlices_total o oldS newS r.query hov
    exact ⟨_, by rw [useBatchedStateUpdate, hacc]; rfl⟩
  · intro o oldS newS acc f e hov hch hf
    rw [stepSorting]
    exact sliceStep_error _ _ _ _ _ _ _ _ hch hov hf
  · intro o oldS newS acc f e hov hch hf
    rw [stepPagination]
    exact sliceStep2_error _ _ _ _ _ _ _ _ _ _ hch hov hf
  · intro o oldS newS acc f e hov hch hf
    rw [stepColumnFilters]
    exact sliceStep_error _ _ _ _ _ _ _ _ hch hov hf
  · intro o oldS newS acc f e hov hch hf
    rw [stepColumnOrder]
    exact sliceStep_error _ _ _ _ _ _ _ _ hch hov hf
  · intro o oldS newS acc f e hov hch hf
    rw [stepRowSelection]
    exact sliceStep_error _ _ _ _ _ _ _ _ hch hov hf
  · intro r o oldS newS f e hov hch hf
    apply hprop
    rw [computeSlices, hgf o oldS newS _ f e hov hch hf]
    rfl

/-- Witness for C7 at concrete inputs: a throwing global filter override
makes the whole update propagate the exception, so no navigation is
issued. -/
theorem claim7_override_exceptions_propagate_witness :
    useBatchedStateUpdate ⟨[], "/"⟩ (some throwingOptions) initialState
      { initialState with globalFilter := some "x" } = Except.error "boom" :=
  claim7_override_exceptions_propagate.2.2.2.2.2.2.2.2 ⟨[], "/"⟩
    (some throwingOptions) initialState
    { initialState with globalFilter := some "x" }
    (fun _ => Except.error "boom") "boom" rfl (by decide) rfl

/-- Claim C9: the pagination slice is re-encoded as a unit.  Whenever
either sub-field changed (and no pagination override is configured), the
step writes or deletes BOTH the `pageIndex` and the `pageSize` parameter
according to each one's own encoding, including the parameter whose
sub-field did not change.  Concretely, a change to `pageSize` alone still
writes `pageIndex=3` (non-default page index two), and with a default
page index it still deletes the `pageIndex` parameter. -/
theorem claim9_pagination_reencoded_as_unit :
    (∀ (o : Option Options) (oldS newS : State) (acc acc' : SliceAcc),
      (encodersOf o).bind (fun t => t.pagination) = none →
      (newS.pagination.pageIndex ≠ oldS.pagination.pageIndex ∨
        newS.pagination.pageSize ≠ oldS.pagination.pageSize) →
      pageIndexParam o ≠ pageSizeParam o →
      stepPagination o oldS newS acc = Except.ok acc' →
      (∀ s, (encodePagination newS.pagination
          ((defaultValuesOf o).bind (fun d => d.pagination))).pageIndex = some s →
        qget acc'.updates (pageIndexParam o) = some (some (QVal.s s))) ∧
      ((encodePagination newS.pagination
          ((defaultValuesOf o).bind (fun d => d.pagination))).pageIndex = none →
        qget acc'.query (pageIndexParam o) = none ∧
          pageIndexParam o ∈ acc'.dels) ∧
      (∀ s, (encodePagination newS.pagination
          ((defaultValuesOf o).bind (fun d => d.pagination))).pageSize = some s →
        qget acc'.updates (pageSizeParam o) = some (some (QVal.s s))) ∧
      ((encodePagination newS.pagination
          ((defaultValuesOf o).bind (fun d => d.pagination))).pageSize = none →
        qget acc'.query (pageSizeParam o) = none ∧
          pageSizeParam o ∈ acc'.dels)) ∧
    (∃ acc', stepPagination none { initialState with pagination := ⟨2, 10⟩ }
        { initialState with pagination := ⟨2, 20⟩ } ⟨[], [], []⟩ =
          Except.ok acc' ∧
      qget acc'.updates "pageIndex" = some (some (QVal.s "3")) ∧
      qget acc'.updates "pageSize" = some (some (QVal.s "20"))) ∧
    (∃ acc', stepPagination none initialState
        { initialState with pagination := ⟨0, 20⟩ }
        ⟨[("pageIndex", some (QVal.s "1"))], [], []⟩ = Except.ok acc' ∧
      qget acc'.query "pageIndex" = none ∧
      "pageIndex" ∈ acc'.dels ∧
      qget acc'.updates "pageSize" = some (some (QVal.s "20"))) := by
  refine ⟨?_,
    ⟨⟨[], [("pageIndex", some (QVal.s "3")), ("pageSize", some (QVal.s "20"))],
        []⟩, by rfl, by rfl, by rfl⟩,
    ⟨⟨[], [("pageSize", some (QVal.s "20"))], ["pageIndex"]⟩, by rfl,
      by rfl, by decide, by rfl⟩⟩
  intro o oldS newS acc acc' hov hch hp hstep
  rw [stepPagination] at hstep
  have e3 := sliceStep2_encoded _ _ _ _ _ _ _ _ _ hov hch hp hstep
  exact ⟨e3.1, fun h => ⟨(e3.2.1 h).1, (e3.2.1 h).2.1⟩, e3.2.2.1,
    fun h => ⟨(e3.2.2.2 h).1, (e3.2.2.2 h).2.1⟩⟩

/-- Witness for C9 at concrete inputs: a `pageSize`-only change writes
the `pageIndex` parameter as well. -/
theorem claim9_pagination_reencoded_as_unit_witness :
    qget (⟨[], [("pageIndex", some (QVal.s "3")), ("pageSize", some (QVal.s "20"))],
        []⟩ : SliceAcc).updates "pageIndex" = some (some (QVal.s "3")) :=
  (claim9_pagination_reencoded_as_unit.1 none
    { initialState with pagination := ⟨2, 10⟩ }
    { initialState with pagination := ⟨2, 20⟩ }
    ⟨[], [], []⟩
    ⟨[], [("pageIndex", some (QVal.s "3")), ("pageSize", some (QVal.s "20"))], []⟩
    rfl (by decide) (by decide) rfl).1 "3" rfl

/-- An override slice step only merges the override's result into
`updates`: the query copy and the delete log are untouched. -/
theorem sliceStep_override_ok {τ : Type} (changed : Prop) [Decidable changed]
    (ov : Option (τ → Except String Query)) (arg : τ) (p : String)
    (e : Option String) (acc acc' : SliceAcc) (f : τ → Except String Query)
    (res : Query) (hch : changed) (hov : ov = some f)
    (hf : f arg = Except.ok res)
    (h : sliceStep changed ov arg p e acc = Except.ok acc') :
    acc'.query = acc.query ∧ acc'.dels = acc.dels ∧
      acc'.updates = qassign acc.updates res := by
  rw [sliceStep_override _ _ _ _ _ _ _ hch hov, hf] at h
  have hacc : applyOverrideResult acc res = acc' := by injection h
  rw [← hacc]
  exact ⟨rfl, rfl, rfl⟩

/-- Claim C10: when a changed slice has a caller-supplied override
encoder, the update only merges the override's returned key-value pairs
into the update set and never deletes the slice's parameter from the
existing query; consequently, a previously existing value for a key the
override's result omits persists unchanged.  Shown for the global filter
and column filters blocks, with the persistence consequence for a
global-filter-only change, and concretely for an override returning the
empty record. -/
theorem claim10_override_never_deletes :
    (∀ (o : Option Options) (oldS newS : State) (acc acc' : SliceAcc)
        (f : Option String → Except String Query) (res : Query),
        (encodersOf o).bind (fun t => t.globalFilter) = some f →
        newS.globalFilter ≠ oldS.globalFilter →
        f newS.globalFilter = Except.ok res →
        stepGlobalFilter o oldS newS acc = Except.ok acc' →
        acc'.query = acc.query ∧ acc'.dels = acc.dels ∧
          acc'.updates = qassign acc.updates res) ∧
    (∀ (o : Option Options) (oldS newS : State) (acc acc' : SliceAcc)
        (f : List ColumnFilter → Except String Query) (res : Query),
        (encodersOf o).bind (fun t => t.columnFilters) = some f →
        newS.columnFilters ≠ oldS.columnFilters →
        f newS.columnFilters = Except.ok res →
        stepColumnFilters o oldS newS acc = Except.ok acc' →
        acc'.query = acc.query ∧ acc'.dels = acc.dels ∧
          acc'.updates = qassign acc.updates res) ∧
    (∀ (r : Router) (o : Option Options) (oldS newS : State) (acc : SliceAcc)
        (f : Option String → Except String Query) (res : Query),
        (qkeys r.query).Nodup →
        (encodersOf o).bind (fun t => t.globalFilter) = some f →
        newS.globalFilter ≠ oldS.globalFilter →
        f newS.globalFilter = Except.ok res →
        newS.sorting = oldS.sorting →
        newS.pagination.pageIndex = oldS.pagination.pageIndex →
        newS.pagination.pageSize = oldS.pagination.pageSize →
        newS.columnFilters = oldS.columnFilters →
        newS.columnOrder = oldS.columnOrder →
        newS.rowSelection = oldS.rowSelection →
        computeSlices o oldS newS r.query = Except.ok acc →
        globalFilterParam o ∉ qkeys res →
        qget (cleanQueryOf acc) (globalFilterParam o) =
          qget (qclean r.query) (globalFilterParam o)) ∧
    (∃ acc, computeSlices (some emptyRecordOverrideOptions)
        initialState { initialState with globalFilter := some "x" }
        [("globalFilter", some (QVal.s "initial"))] = Except.ok acc ∧
      qget (cleanQueryOf acc) "globalFilter" = some (some (QVal.s "initial")) ∧
      useBatchedStateUpdate
        ⟨[("globalFilter", some (QVal.s "initial"))], "/"⟩
        (some emptyRecordOverrideOptions)
        initialState { initialState with globalFilter := some "x" } =
          Except.ok ["/?globalFilter=initial"]) := by
  refine ⟨?_, ?_, ?_, ?_⟩
  · intro o oldS newS acc acc' f res hov hch hf h
    rw [stepGlobalFilter] at h
    exact sliceStep_override_ok _ _ _ _ _ _ _ _ _ hch hov hf h
  · intro o oldS newS acc acc' f res hov hch hf h
    rw [stepColumnFilters] at h
    exact sliceStep_override_ok _ _ _ _ _ _ _ _ _ hch hov hf h
  · intro r o oldS newS acc f res hnd hov hch hf hsort hpi hps hcf hco hrs
      hcs hkres
    obtain ⟨a1, a2, a3, a4, a5, h1, h2, h3, h4, h5, h6⟩ :=
      computeSlices_inv o oldS newS r.query acc hcs
    rw [stepGlobalFilter] at h1
    have ho1 := sliceStep_override_ok _ _ _ _ _ _ _ _ _ hch hov hf h1
    rw [stepSorting,
      sliceStep_unchanged _ _ _ _ _ _ (fun hh => hh hsort)] at h2
    have ha2 : a1 = a2 := by injection h2
    rw [stepPagination,
      sliceStep2_unchanged _ _ _ _ _ _ _ _ (by simp [hpi, hps])] at h3
    have ha3 : a2 = a3 := by injection h3
    rw [stepColumnFilters,
      sliceStep_unchanged _ _ _ _ _ _ (fun hh => hh hcf)] at h4
    have ha4 : a3 = a4 := by injection h4
    rw [stepColumnOrder,
      sliceStep_unchanged _ _ _ _ _ _ (fun hh => hh hco)] at h5
    have ha5 : a4 = a5 := by injection h5
    rw [stepRowSelection,
      sliceStep_unchanged _ _ _ _ _ _ (fun hh => hh hrs)] at h6
    have ha6 : a5 = acc := by injection h6
    have haq : acc.query = r.query := by
      rw [← ha6, ← ha5, ← ha4, ← ha3, ← ha2, ho1.1]
    have hau : acc.updates = qassign [] res := by
      rw [← ha6, ← ha5, ← ha4, ← ha3, ← ha2, ho1.2.2]
    have hupd : qget acc.updates (globalFilterParam o) = none := by
      rw [hau, qget_qassign_not_mem _ _ _ hkres]
      rfl
    have hnd2 : (qkeys acc.query).Nodup := by rw [haq]; exact hnd
    have hfq : qget (finalQueryOf acc) (globalFilterParam o) =
        qget r.query (globalFilterParam o) := by
      rw [finalQueryOf,
        qget_qassign_not_mem _ _ _ ((qget_eq_none_iff_not_mem _ _).1 hupd), haq]
    rw [cleanQueryOf]
    rw [finalQueryOf] at hfq ⊢
    cases hv : qget r.query (globalFilterParam o) with
    | none =>
      rw [qget_qclean_of_none _ _ (hfq.trans hv), qget_qclean_of_none _ _ hv]
    | some v =>
      cases v with
      | none =>
        rw [qget_qclean_none _ _ (nodup_qassign _ _ hnd2) (hfq.trans hv),
          qget_qclean_none _ _ hnd hv]
      | some w =>
        rw [qget_qclean_some _ _ _ (hfq.trans hv), qget_qclean_some _ _ _ hv]
  · exact ⟨_, rfl, rfl, rfl⟩

/-- Witness for C10 at concrete inputs: a changed global filter whose
override returns the empty record leaves the existing
`globalFilter=initial` entry in place. -/
theorem claim10_override_never_deletes_witness :
    qget (cleanQueryOf
        ⟨[("globalFilter", some (QVal.s "initial"))], [], []⟩)
      "globalFilter" =
      qget (qclean [("globalFilter", some (QVal.s "initial"))])
        "globalFilter" :=
  claim10_override_never_deletes.2.2.1
    ⟨[("globalFilter", some (QVal.s "initial"))], "/"⟩
    (some emptyRecordOverrideOptions) initialState
    { initialState with globalFilter := some "x" }
    ⟨[("globalFilter", some (QVal.s "initial"))], [], []⟩
    (fun _ => Except.ok []) [] (by decide) rfl (by decide) rfl rfl rfl rfl
    rfl rfl rfl rfl (by decide)

/-- Claim C4: the default pagination codec encodes `{pageIndex, pageSize}`
to two independent scalar parameters, each omitted independently exactly
when equal to its configured default, with `pageIndex` offset by plus one
on encode and minus one on decode; a pagination change to
`{pageIndex:2, pageSize:20}` yields a query containing `pageIndex=3` and
`pageSize=20` under the two default parameter names. -/
theorem claim4_pagination_codec :
    (∀ v dv : Pagination,
      ((encodePagination v (some dv)).pageIndex = none ↔
        v.pageIndex = dv.pageIndex) ∧
      ((encodePagination v (some dv)).pageSize = none ↔
        v.pageSize = dv.pageSize) ∧
      (v.pageIndex ≠ dv.pageIndex →
        (encodePagination v (some dv)).pageIndex =
          some (String.mk (natToChars (v.pageIndex + 1)))) ∧
      (v.pageSize ≠ dv.pageSize →
        (encodePagination v (some dv)).pageSize =
          some (String.mk (natToChars v.pageSize))) ∧
      (v.pageIndex ≠ dv.pageIndex → v.pageSize ≠ dv.pageSize →
        decodePagination
          (((encodePagination v (some dv)).pageIndex).map QVal.s)
          (((encodePagination v (some dv)).pageSize).map QVal.s)
          (some dv) = v)) ∧
    encodePagination ⟨2, 20⟩ none =
      ⟨some "3", some "20"⟩ ∧
    (∃ acc, computeSlices none initialState
        { initialState with pagination := ⟨2, 20⟩ } [] = Except.ok acc ∧
      qget (cleanQueryOf acc) "pageIndex" = some (some (QVal.s "3")) ∧
      qget (cleanQueryOf acc) "pageSize" = some (some (QVal.s "20")) ∧
      useBatchedStateUpdate ⟨[], "/"⟩ none initialState
        { initialState with pagination := ⟨2, 20⟩ } =
          Except.ok ["/?pageIndex=3&pageSize=20"]) := by
  refine ⟨?_, by rfl, ⟨_, rfl, by rfl, by rfl, by rfl⟩⟩
  intro v dv
  refine ⟨?_, ?_, ?_, ?_, ?_⟩
  · constructor
    · intro h
      by_contra hne
      rw [encodePagination] at h
      simp only [Option.getD] at h
      rw [if_neg hne] at h
      exact absurd h (by simp)
    · intro h
      rw [encodePagination]
      simp [h]
  · constructor
    · intro h
      by_contra hne
      rw [encodePagination] at h
      simp only [Option.getD] at h
      rw [if_neg hne] at h
      exact absurd h (by simp)
    · intro h
      rw [encodePagination]
      simp [h]
  · intro h
    rw [encodePagination]
    simp [h]
  · intro h
    rw [encodePagination]
    simp [h]
  · intro hpi hps
    obtain ⟨pi, ps⟩ := v
    simp only at hpi hps
    rw [encodePagination]
    simp only [Option.getD, if_neg hpi, if_neg hps, Option.map_some']
    rw [decodePagination]
    have h1 : parseNatChars (String.mk (natToChars (pi + 1))).data =
        some (pi + 1) := parseNatChars_natToChars _
    have h2 : parseNatChars (String.mk (natToChars ps)).data =
        some ps := parseNatChars_natToChars _
    simp [h1, h2]

/-- Witness for C4 at concrete inputs: encoding pagination `{1, 5}`
against the built-in default `{0, 10}` and decoding it back yields
`{1, 5}` again, with `pageIndex` written one-based. -/
theorem claim4_pagination_codec_witness :
    (1 : Nat) ≠ 0 ∧ (5 : Nat) ≠ 10 ∧
    decodePagination
      (((encodePagination ⟨1, 5⟩ (some ⟨0, 10⟩)).pageIndex).map QVal.s)
      (((encodePagination ⟨1, 5⟩ (some ⟨0, 10⟩)).pageSize).map QVal.s)
      (some ⟨0, 10⟩) = ⟨1, 5⟩ :=
  ⟨by decide, by decide,
   (claim4_pagination_codec.1 ⟨1, 5⟩ ⟨0, 10⟩).2.2.2.2 (by decide) (by decide)⟩

/-- Claim C8 (modelled from the spec: the debounce/scheduling layer is
not part of the repository snapshot): for a slice with a positive
configured delay, two changes within the delay window cancel the earlier
pending timer and produce exactly one navigation, at the second change's
expiry, carrying only the final value — trailing edge only, with no
leading-edge execution. -/
theorem claim8_debounce_single_trailing_navigation :
    ∀ (α : Type) (d t1 t2 : Nat) (v1 v2 : α), 0 < d → t1 ≤ t2 → t2 < t1 + d →
      debounceRun d none [(t1, v1), (t2, v2)] = [(t2 + d, v2)] := by
  intro α d t1 t2 v1 v2 hd h12 hwin
  rw [debounceRun]
  simp only [List.nil_append]
  rw [debounceRun]
  rw [if_neg (by omega)]
  simp only [List.nil_append]
  rw [debounceRun]

/-- Witness for C8 at concrete inputs: delay 100, changes at times 0 and
50 produce the single navigation `(150, 2)`. -/
theorem claim8_debounce_single_trailing_navigation_witness :
    debounceRun 100 none [(0, 1), (50, 2)] = [(150, (2 : Nat))] :=
  claim8_debounce_single_trailing_navigation Nat 100 0 50 1 2
    (by decide) (by decide) (by decide)

/-! ### Per-slice codec round-trip lemmas -/

theorem qhas_iff_mem (q : Query) (k : String) :
    qhas q k = true ↔ k ∈ qkeys q := by
  induction q with
  | nil => simp [qhas, qkeys]
  | cons p ps ih =>
    rw [qhas, qkeys_cons, List.mem_cons, Bool.or_eq_true_iff]
    constructor
    · rintro (h1 | h2)
      · have hp : p.1 = k := by simpa using h1
        exact Or.inl hp.symm
      · exact Or.inr (ih.1 h2)
    · rintro (h1 | h2)
      · have hp : (p.1 == k) = true := by simp [h1]
        exact Or.inl hp
      · exact Or.inr (ih.2 h2)

theorem qget_append_of_none (q rest : Query) (k : String)
    (h : qget q k = none) : qget (q ++ rest) k = qget rest k := by
  apply qget_append_not_has
  cases hq : qhas q k with
  | false => rfl
  | true =>
    rw [qget_eq_none_iff_not_mem] at h
    exact absurd ((qhas_iff_mem q k).1 hq) h

theorem qread_qsetEnc_same (q : Query) (k : String) (v : Option String)
    (h : qget q k = none) : qread (qsetEnc q k v) k = v.map QVal.s := by
  cases v with
  | some s =>
    rw [qsetEnc, qread, qget_append_of_none q _ k h]
    simp [qget]
  | none =>
    rw [qsetEnc, qread, h]
    rfl

theorem qread_qsetEnc_ne (q : Query) (k : String) (v : Option String)
    (k' : String) (h : k' ≠ k) : qread (qsetEnc q k v) k' = qread q k' := by
  cases v with
  | some s => rw [qsetEnc, qread, qget_append_single_ne q k k' _ h]; rfl
  | none => rfl

theorem qget_qsetEnc_ne (q : Query) (k : String) (v : Option String)
    (k' : String) (h : k' ≠ k) : qget (qsetEnc q k v) k' = qget q k' := by
  cases v with
  | some s => rw [qsetEnc]; exact qget_append_single_ne q k k' _ h
  | none => rfl

theorem mapOpt_map_id {α β : Type} (g : β → Option α) (h : α → β)
    (l : List α) (hx : ∀ x ∈ l, g (h x) = some x) :
    mapOpt g (l.map h) = some l := by
  induction l with
  | nil => rfl
  | cons a as ih =>
    rw [List.map_cons, mapOpt, hx a (List.mem_cons_self a as),
      ih (fun x hm => hx x (List.mem_cons_of_mem a hm))]

theorem not_mem_concatMap {α : Type} (x : β) (f : α → List β)
    (h : ∀ a, x ∉ f a) : ∀ l, x ∉ concatMap f l := by
  intro l
  induction l with
  | nil => simp [concatMap]
  | cons a as ih =>
    rw [concatMap_cons]
    intro hm
    rcases List.mem_append.1 hm with h1 | h2
    · exact h a h1
    · exact ih h2

theorem dropSuffix_append (a suf : List Char) :
    dropSuffix (a ++ suf) suf = some a := by
  rw [dropSuffix, if_pos, List.length_append, Nat.add_sub_cancel,
    List.take_left]
  constructor
  · rw [List.length_append]; omega
  · rw [List.length_append, Nat.add_sub_cancel, List.drop_left]

theorem dropSuffix_some (l suf r : List Char)
    (h : dropSuffix l suf = some r) : l = r ++ suf := by
  rw [dropSuffix] at h
  split at h
  · next hc =>
    have hr : List.take (l.length - suf.length) l = r := by simpa using h
    conv_lhs => rw [← List.take_append_drop (l.length - suf.length) l]
    rw [hr, hc.2]
  · exact absurd h (by simp)

theorem append_asc_ne_append_desc (a r : List Char) :
    a ++ (".asc".data) ≠ r ++ (".desc".data) := by
  intro h
  have h2 := congrArg List.reverse h
  rw [List.reverse_append, List.reverse_append] at h2
  have e1 : (".asc".data).reverse = ['c', 's', 'a', '.'] := rfl
  have e2 : (".desc".data).reverse = ['c', 's', 'e', 'd', '.'] := rfl
  rw [e1, e2] at h2
  simp at h2

theorem parseSortItem_sortItem (cs : ColumnSort) :
    parseSortItem (sortItemToChars cs) = some cs := by
  obtain ⟨cid, desc⟩ := cs
  cases desc with
  | true =>
    have hdata : (sortItemToChars ⟨cid, true⟩).data = cid.data ++ ".desc".data := by
      rw [sortItemToChars]
      simp [String.data_append]
    rw [parseSortItem, hdata, dropSuffix_append]
  | false =>
    have hdata : (sortItemToChars ⟨cid, false⟩).data = cid.data ++ ".asc".data := by
      rw [sortItemToChars]
      simp [String.data_append]
    have hfail : dropSuffix (cid.data ++ ".asc".data) (".desc".data) = none := by
      cases hds : dropSuffix (cid.data ++ ".asc".data) (".desc".data) with
      | none => rfl
      | some res =>
        exact absurd (dropSuffix_some _ _ _ hds)
          (append_asc_ne_append_desc cid.data res)
    rw [parseSortItem, hdata, hfail, dropSuffix_append]

theorem comma_not_mem_sortItem (cs : ColumnSort)
    (h : commaChar ∉ cs.id.data) : commaChar ∉ (sortItemToChars cs).data := by
  rw [sortItemToChars]
  intro hm
  rw [String.data_append, List.mem_append] at hm
  rcases hm with h1 | h2
  · exact h h1
  · revert h2
    split <;> decide

/-- Sorting decode undoes sorting encode for nonempty, non-default values
whose column ids contain no comma. -/
theorem decodeSorting_encodeSorting (v : List ColumnSort)
    (dv : Option (List ColumnSort)) (hne : v ≠ [])
    (hnd : v ≠ dv.getD []) (hid : ∀ cs ∈ v, commaChar ∉ cs.id.data) :
    decodeSorting ((encodeSorting v dv).map QVal.s) dv = v := by
  rw [encodeSorting, if_neg (by tauto), Option.map_some', decodeSorting]
  rw [splitStr_joinStr commaChar (v.map sortItemToChars)
    (by simpa using hne)
    (by
      intro x hx
      rw [List.mem_map] at hx
      obtain ⟨cs, hcs, hx⟩ := hx
      rw [← hx]
      exact comma_not_mem_sortItem cs (hid cs hcs))]
  rw [mapOpt_map_id parseSortItem sortItemToChars v
    (fun cs _ => parseSortItem_sortItem cs)]

/-- Column order decode undoes encode for nonempty, non-default values
whose ids contain no comma. -/
theorem decodeColumnOrder_encodeColumnOrder (v : List String)
    (dv : Option (List String)) (hne : v ≠ []) (hnd : v ≠ dv.getD [])
    (hid : ∀ cid ∈ v, commaChar ∉ cid.data) :
    decodeColumnOrder ((encodeColumnOrder v dv).map QVal.s) dv = v := by
  rw [encodeColumnOrder, if_neg (by tauto), Option.map_some', decodeColumnOrder]
  exact splitStr_joinStr commaChar v hne hid

/-- Global filter decode undoes encode for defined, non-default values. -/
theorem decodeGlobalFilter_encodeGlobalFilter (v : Option String)
    (dv : Option String) (hne : v ≠ none) (hnd : v ≠ dv) :
    decodeGlobalFilter ((encodeGlobalFilter v dv).map QVal.s) dv = v := by
  rw [encodeGlobalFilter, if_neg (by tauto)]
  cases v with
  | none => exact absurd rfl hne
  | some s => rfl

/-- Pagination decode undoes encode when neither sub-field equals its
configured default. -/
theorem decodePagination_encodePagination (v : Pagination)
    (dv : Option Pagination)
    (hpi : v.pageIndex ≠ (dv.getD defaultPagination).pageIndex)
    (hps : v.pageSize ≠ (dv.getD defaultPagination).pageSize) :
    decodePagination (((encodePagination v dv).pageIndex).map QVal.s)
      (((encodePagination v dv).pageSize).map QVal.s) dv = v := by
  obtain ⟨pi, ps⟩ := v
  simp only at hpi hps
  rw [encodePagination]
  simp only [if_neg hpi, if_neg hps, Option.map_some']
  rw [decodePagination]
  have h1 : parseNatChars (String.mk (natToChars (pi + 1))).data =
      some (pi + 1) := parseNatChars_natToChars _
  have h2 : parseNatChars (String.mk (natToChars ps)).data =
      some ps := parseNatChars_natToChars _
  simp [h1, h2]

theorem filterItem_data (cf : ColumnFilter) :
    (filterItemToChars cf).data =
      cf.id.data ++ dotChar :: concatMap urlEncodeChar (jsonEncodeFV cf.value) := by
  rw [filterItemToChars]
  have hdot : (".".data) = [dotChar] := by decide
  rw [String.data_append, String.data_append, hdot]
  simp [string_mk_data]

theorem comma_not_mem_filterItem (cf : ColumnFilter)
    (h : commaChar ∉ cf.id.data) : commaChar ∉ (filterItemToChars cf).data := by
  rw [filterItem_data]
  intro hm
  rcases List.mem_append.1 hm with h1 | h2
  · exact h h1
  · rcases List.mem_cons.1 h2 with h3 | h4
    · exact absurd h3 (by decide)
    · exact not_mem_concatMap commaChar urlEncodeChar
        comma_not_mem_urlEncodeChar _ h4

theorem parseFilterItem_filterItem (cf : ColumnFilter)
    (hdot : dotChar ∉ cf.id.data) :
    parseFilterItem (filterItemToChars cf) = some cf := by
  rw [parseFilterItem, filterItem_data,
    breakAtChar_append dotChar _ _ hdot]
  simp [urlDecode_urlEncode, jsonParse_jsonEncodeFV, string_mk_data]

/-- Column filters decode undoes encode for nonempty, non-default values
whose ids contain neither a comma nor a dot. -/
theorem decodeColumnFilters_encodeColumnFilters (v : List ColumnFilter)
    (dv : Option (List ColumnFilter)) (hne : v ≠ []) (hnd : v ≠ dv.getD [])
    (hid : ∀ cf ∈ v, commaChar ∉ cf.id.data ∧ dotChar ∉ cf.id.data) :
    decodeColumnFilters ((encodeColumnFilters v dv).map QVal.s) dv = v := by
  rw [encodeColumnFilters, if_neg (by tauto), Option.map_some',
    decodeColumnFilters]
  rw [splitStr_joinStr commaChar (v.map filterItemToChars)
    (by simpa using hne)
    (by
      intro x hx
      rw [List.mem_map] at hx
      obtain ⟨cf, hcf, hx⟩ := hx
      rw [← hx]
      exact comma_not_mem_filterItem cf (hid cf hcf).1)]
  rw [mapOpt_map_id parseFilterItem filterItemToChars v
    (fun cf hcf => parseFilterItem_filterItem cf (hid cf hcf).2)]

theorem map_fst_true (l : List (String × Bool)) (h : ∀ p ∈ l, p.2 = true) :
    (l.map (fun p => p.1)).map (fun k => (k, true)) = l := by
  induction l with
  | nil => rfl
  | cons p ps ih =>
    have hp := h p (List.mem_cons_self p ps)
    rw [List.map_cons, List.map_cons,
      ih (fun x hm => h x (List.mem_cons_of_mem p hm))]
    rw [← hp]

/-- Row selection decode undoes encode for nonempty, non-default,
all-selected values whose row ids contain no comma. -/
theorem decodeRowSelection_encodeRowSelection (v : List (String × Bool))
    (dv : Option (List (String × Bool))) (hne : v ≠ [])
    (hnd : v ≠ dv.getD []) (htrue : ∀ p ∈ v, p.2 = true)
    (hid : ∀ p ∈ v, commaChar ∉ p.1.data) :
    decodeRowSelection ((encodeRowSelection v dv).map QVal.s) dv = v := by
  have hfilter : v.filter (fun p => p.2) = v :=
    List.filter_eq_self.mpr (fun p hp => by simpa using htrue p hp)
  have hkne : v.map (fun p => p.1) ≠ [] := by simpa using hne
  rw [encodeRowSelection]
  simp only [hfilter]
  rw [if_neg (not_or.mpr ⟨hnd, hkne⟩), Option.map_some', decodeRowSelection]
  rw [splitStr_joinStr commaChar (v.map (fun p => p.1)) hkne
    (by
      intro x hx
      rw [List.mem_map] at hx
      obtain ⟨p, hp, hx⟩ := hx
      rw [← hx]
      exact hid p hp)]
  exact map_fst_true v htrue

theorem encodeState_read_globalFilter (st : State) (d : Option DefaultValues) :
    qread (encodeState st d) "globalFilter" =
      (encodeGlobalFilter st.globalFilter
        (d.bind (fun t => t.globalFilter))).map QVal.s := by
  simp only [encodeState]
  rw [qread_qsetEnc_ne _ _ _ _ (by decide), qread_qsetEnc_ne _ _ _ _ (by decide),
    qread_qsetEnc_ne _ _ _ _ (by decide), qread_qsetEnc_ne _ _ _ _ (by decide),
    qread_qsetEnc_ne _ _ _ _ (by decide), qread_qsetEnc_ne _ _ _ _ (by decide)]
  exact qread_qsetEnc_same _ _ _ rfl

theorem encodeState_read_sorting (st : State) (d : Option DefaultValues) :
    qread (encodeState st d) "sorting" =
      (encodeSorting st.sorting (d.bind (fun t => t.sorting))).map QVal.s := by
  simp only [encodeState]
  rw [qread_qsetEnc_ne _ _ _ _ (by decide), qread_qsetEnc_ne _ _ _ _ (by decide),
    qread_qsetEnc_ne _ _ _ _ (by decide), qread_qsetEnc_ne _ _ _ _ (by decide),
    qread_qsetEnc_ne _ _ _ _ (by decide)]
  exact qread_qsetEnc_same _ _ _
    (by rw [qget_qsetEnc_ne _ _ _ _ (by decide)]; rfl)

theorem encodeState_read_pageIndex (st : State) (d : Option DefaultValues) :
    qread (encodeState st d) "pageIndex" =
      ((encodePagination st.pagination
        (d.bind (fun t => t.pagination))).pageIndex).map QVal.s := by
  simp only [encodeState]
  rw [qread_qsetEnc_ne _ _ _ _ (by decide), qread_qsetEnc_ne _ _ _ _ (by decide),
    qread_qsetEnc_ne _ _ _ _ (by decide), qread_qsetEnc_ne _ _ _ _ (by decide)]
  exact qread_qsetEnc_same _ _ _
    (by rw [qget_qsetEnc_ne _ _ _ _ (by decide),
      qget_qsetEnc_ne _ _ _ _ (by decide)]; rfl)

theorem encodeState_read_pageSize (st : State) (d : Option DefaultValues) :
    qread (encodeState st d) "pageSize" =
      ((encodePagination st.pagination
        (d.bind (fun t => t.pagination))).pageSize).map QVal.s := by
  simp only [encodeState]
  rw [qread_qsetEnc_ne _ _ _ _ (by decide), qread_qsetEnc_ne _ _ _ _ (by decide),
    qread_qsetEnc_ne _ _ _ _ (by decide)]
  exact qread_qsetEnc_same _ _ _
    (by rw [qget_qsetEnc_ne _ _ _ _ (by decide),
      qget_qsetEnc_ne _ _ _ _ (by decide),
      qget_qsetEnc_ne _ _ _ _ (by decide)]; rfl)

theorem encodeState_read_columnFilters (st : State) (d : Option DefaultValues) :
    qread (encodeState st d) "columnFilters" =
      (encodeColumnFilters st.columnFilters
        (d.bind (fun t => t.columnFilters))).map QVal.s := by
  simp only [encodeState]
  rw [qread_qsetEnc_ne _ _ _ _ (by decide), qread_qsetEnc_ne _ _ _ _ (by decide)]
  exact qread_qsetEnc_same _ _ _
    (by rw [qget_qsetEnc_ne _ _ _ _ (by decide),
      qget_qsetEnc_ne _ _ _ _ (by decide),
      qget_qsetEnc_ne _ _ _ _ (by decide),
      qget_qsetEnc_ne _ _ _ _ (by decide)]; rfl)

theorem encodeState_read_columnOrder (st : State) (d : Option DefaultValues) :
    qread (encodeState st d) "columnOrder" =
      (encodeColumnOrder st.columnOrder
        (d.bind (fun t => t.columnOrder))).map QVal.s := by
  simp only [encodeState]
  rw [qread_qsetEnc_ne _ _ _ _ (by decide)]
  exact qread_qsetEnc_same _ _ _
    (by rw [qget_qsetEnc_ne _ _ _ _ (by decide),
      qget_qsetEnc_ne _ _ _ _ (by decide),
      qget_qsetEnc_ne _ _ _ _ (by decide),
      qget_qsetEnc_ne _ _ _ _ (by decide),
      qget_qsetEnc_ne _ _ _ _ (by decide)]; rfl)

theorem encodeState_read_rowSelection (st : State) (d : Option DefaultValues) :
    qread (encodeState st d) "rowSelection" =
      (encodeRowSelection st.rowSelection
        (d.bind (fun t => t.rowSelection))).map QVal.s := by
  simp only [encodeState]
  exact qread_qsetEnc_same _ _ _
    (by rw [qget_qsetEnc_ne _ _ _ _ (by decide),
      qget_qsetEnc_ne _ _ _ _ (by decide),
      qget_qsetEnc_ne _ _ _ _ (by decide),
      qget_qsetEnc_ne _ _ _ _ (by decide),
      qget_qsetEnc_ne _ _ _ _ (by decide),
      qget_qsetEnc_ne _ _ _ _ (by decide)]; rfl)

/-- Counterexample to claim C5 as stated: `cexState` has no field equal
to its configured default (no defaults configured), yet decoding its
encoding does not return it — the `false` row selection entry is dropped
by the encoder, so the round trip yields the default empty selection. -/
theorem claim5_roundtrip_counterexample :
    cexState.globalFilter ≠ none ∧
    cexState.sorting ≠ [] ∧
    cexState.pagination.pageIndex ≠ defaultPagination.pageIndex ∧
    cexState.pagination.pageSize ≠ defaultPagination.pageSize ∧
    cexState.columnFilters ≠ [] ∧
    cexState.columnOrder ≠ [] ∧
    cexState.rowSelection ≠ [] ∧
    decodeState (encodeState cexState none) none ≠ cexState := by decide

/-- Claim C5 (amended): `decode(encode(s)) = s` holds whenever no field
equals its configured default, no field is the codec's empty value (a
defined global filter, nonempty sequences and selection), every row
selection entry is selected, and no id contains the join delimiter comma
(nor, for column filter ids, a dot). -/
theorem claim5_roundtrip_amended (st : State) (d : Option DefaultValues)
    (hgf1 : st.globalFilter ≠ none)
    (hgf2 : st.globalFilter ≠ d.bind (fun t => t.globalFilter))
    (hso1 : st.sorting ≠ [])
    (hso2 : st.sorting ≠ (d.bind (fun t => t.sorting)).getD [])
    (hso3 : ∀ cs ∈ st.sorting, commaChar ∉ cs.id.data)
    (hpi : st.pagination.pageIndex ≠
      ((d.bind (fun t => t.pagination)).getD defaultPagination).pageIndex)
    (hps : st.pagination.pageSize ≠
      ((d.bind (fun t => t.pagination)).getD defaultPagination).pageSize)
    (hcf1 : st.columnFilters ≠ [])
    (hcf2 : st.columnFilters ≠ (d.bind (fun t => t.columnFilters)).getD [])
    (hcf3 : ∀ cf ∈ st.columnFilters,
      commaChar ∉ cf.id.data ∧ dotChar ∉ cf.id.data)
    (hco1 : st.columnOrder ≠ [])
    (hco2 : st.columnOrder ≠ (d.bind (fun t => t.columnOrder)).getD [])
    (hco3 : ∀ cid ∈ st.columnOrder, commaChar ∉ cid.data)
    (hrs1 : st.rowSelection ≠ [])
    (hrs2 : st.rowSelection ≠ (d.bind (fun t => t.rowSelection)).getD [])
    (hrs3 : ∀ p ∈ st.rowSelection, p.2 = true)
    (hrs4 : ∀ p ∈ st.rowSelection, commaChar ∉ p.1.data) :
    decodeState (encodeState st d) d = st := by
  rw [decodeState]
  obtain ⟨gf, so, pag, cf, co, rs⟩ := st
  rw [State.mk.injEq]
  refine ⟨?_, ?_, ?_, ?_, ?_, ?_⟩
  · rw [encodeState_read_globalFilter]
    exact decodeGlobalFilter_encodeGlobalFilter _ _ hgf1 hgf2
  · rw [encodeState_read_sorting]
    exact decodeSorting_encodeSorting _ _ hso1 hso2 hso3
  · rw [encodeState_read_pageIndex, encodeState_read_pageSize]
    exact decodePagination_encodePagination _ _ hpi hps
  · rw [encodeState_read_columnFilters]
    exact decodeColumnFilters_encodeColumnFilters _ _ hcf1 hcf2 hcf3
  · rw [encodeState_read_columnOrder]
    exact decodeColumnOrder_encodeColumnOrder _ _ hco1 hco2 hco3
  · rw [encodeState_read_rowSelection]
    exact decodeRowSelection_encodeRowSelection _ _ hrs1 hrs2 hrs3 hrs4

/-- Witness for the amended C5 at a concrete input: `okState` (strings
with spaces, a negative number, a descending and an ascending sort,
multiple ids) round-trips exactly. -/
theorem claim5_roundtrip_amended_witness :
    decodeState (encodeState okState none) none = okState :=
  claim5_roundtrip_amended okState none (by decide) (by decide) (by decide)
    (by decide) (by decide) (by decide) (by decide) (by decide) (by decide)
    (by decide) (by decide) (by decide) (by decide) (by decide) (by decide)
    (by decide) (by decide)

end TTSP
